import Mathlib

/-!
Verification of the Size-Style Extractor core (`size_style_core.py`, with the
near-identical copy in `esty_counter.py` and the web summary in
`streamlit_app.py`).

The Python source is shallowly embedded: strings are `String` / `List Char`,
Python ints are `Nat` (quantities parsed from digits) or `Int` (aggregated
quantities), Python dicts are insertion-ordered association lists, and the
regular expressions of the source are compiled by hand into deterministic
scanners.  Every regular expression used by the source is built from
character classes that are pairwise disjoint at each juncture (whitespace,
`[:x]`, digits, literal letters), so greedy matching without backtracking is
the exact semantics; alternations are tried in the source order, and
word-boundary assertions are modelled by tracking whether the previous
character is a word character.  Python's Unicode `\s`, `\w`, `str.lower`
tables are modelled over their ASCII core plus the explicitly listed Unicode
whitespace code points; all inputs appearing in the repository's vocabulary
are ASCII, where the model is exact.
-/

/-- Whitespace test modelling Python's `\s` / `str.strip` character class:
ASCII whitespace, the C1 separators, and the Unicode space code points. -/
def isPySpace (c : Char) : Bool :=
  c == ' ' || c == Char.ofNat 9 || c == Char.ofNat 10 || c == Char.ofNat 13 ||
  c == Char.ofNat 11 || c == Char.ofNat 12 ||
  (Char.ofNat 28 ≤ c && c ≤ Char.ofNat 31) || c == Char.ofNat 0x85 ||
  c == Char.ofNat 0xA0 || c == Char.ofNat 0x1680 ||
  (Char.ofNat 0x2000 ≤ c && c ≤ Char.ofNat 0x200A) ||
  c == Char.ofNat 0x2028 || c == Char.ofNat 0x2029 || c == Char.ofNat 0x202F ||
  c == Char.ofNat 0x205F || c == Char.ofNat 0x3000

/-- Word-character test modelling Python's `\w` (ASCII core: letters, digits,
underscore). -/
def pyWordChar (c : Char) : Bool :=
  (('a' ≤ c && c ≤ 'z') || ('A' ≤ c && c ≤ 'Z') || ('0' ≤ c && c ≤ '9') || c == '_')

/-- Decimal digit, Python's `\d` (ASCII core). -/
def isPyDigit (c : Char) : Bool := '0' ≤ c && c ≤ '9'

/-- Membership in the character class `[:x]` under `re.IGNORECASE`. -/
def isColonX (c : Char) : Bool := c == ':' || c == 'x' || c == 'X'

/-- Exact literal match at the head of the input: `dropLit pat s` returns the
rest of `s` after `pat` when `pat` is literally at the front, else `none`. -/
def dropLit : List Char → List Char → Option (List Char)
  | [], s => some s
  | _ :: _, [] => none
  | p :: ps, c :: cs => if c == p then dropLit ps cs else none

/-- Case-insensitive literal match at the head of the input (the pattern is
given in lowercase), modelling a literal regex atom under `re.IGNORECASE`.
Returns the rest of the original (un-lowered) input. -/
def lcLit : List Char → List Char → Option (List Char)
  | [], s => some s
  | _ :: _, [] => none
  | p :: ps, c :: cs => if c.toLower == p then lcLit ps cs else none

/-- Substring test `pat in s` (Python `in` / an unanchored literal regex):
true iff `pat` occurs literally at some position of `s`. -/
def containsQ (pat : List Char) : List Char → Bool
  | [] => (dropLit pat []).isSome
  | c :: cs => (dropLit pat (c :: cs)).isSome || containsQ pat cs

/-- Decimal value of a digit run, as `int(...)` applied to a `(\d+)` group. -/
def digitsToNat (ds : List Char) : Nat :=
  ds.foldl (fun n c => n * 10 + (c.toNat - ('0').toNat)) 0

/-! ## Quantity helpers (`_parse_quantity_from_line`, `find_quantity_near`) -/

/-- Attempt to match `(?:qty|quantity)\s*[:x]*\s*(\d+)` (IGNORECASE) at the
head of the input and return the value of the digit group.  The alternatives
`qty` and `quantity` differ at their second character, so they are mutually
exclusive at any position, and the classes `\s`, `[:x]`, `\d` are pairwise
disjoint, so greedy scanning is the exact regex semantics. -/
def matchAtQ (s : List Char) : Option Nat :=
  match (lcLit ("qty".data) s).orElse (fun _ => lcLit ("quantity".data) s) with
  | none => none
  | some r =>
    let r1 := r.dropWhile isPySpace
    let r2 := r1.dropWhile isColonX
    let r3 := r2.dropWhile isPySpace
    let ds := r3.takeWhile isPyDigit
    if ds.isEmpty then none else some (digitsToNat ds)

/-- Leftmost unanchored search, modelling `re.search` of the quantity
pattern: try every position left to right. -/
def searchQ : List Char → Option Nat
  | [] => none
  | c :: cs =>
    match matchAtQ (c :: cs) with
    | some q => some q
    | none => searchQ cs

/-- Embedding of `_parse_quantity_from_line`: unanchored search for
`(?:qty|quantity)\s*[:x]*\s*(\d+)` (IGNORECASE), returning the integer of the
first match, if any.  (The leading underscore of the Python name is dropped.) -/
def parse_quantity_from_line (line : String) : Option Nat :=
  searchQ line.data

/-- Embedding of the module constant `QTY_RE`, the anchored whole-line
pattern `^\s*(?:qty|quantity)\s*[:x]*\s*(\d+)\s*$` (IGNORECASE), as a
matcher returning the digit group.  The source defines it but the quantity
resolver never consults it. -/
def qtyReMatch (line : String) : Option Nat :=
  match (lcLit ("qty".data) (line.data.dropWhile isPySpace)).orElse
      (fun _ => lcLit ("quantity".data) (line.data.dropWhile isPySpace)) with
  | none => none
  | some r =>
    let r1 := r.dropWhile isPySpace
    let r2 := r1.dropWhile isColonX
    let r3 := r2.dropWhile isPySpace
    let ds := r3.takeWhile isPyDigit
    if ds.isEmpty then none
    else if ((r3.dropWhile isPyDigit).dropWhile isPySpace).isEmpty then
      some (digitsToNat ds)
    else none

/-- Quantity of the line at index `j`, as the resolver reads it.  Out-of-range
indices are totalized with the empty line; every theorem below constrains the
label index to be in range, where this agrees with the Python list indexing. -/
def qAt (lines : List String) (j : Nat) : Option Nat :=
  parse_quantity_from_line (lines.getD j "")

/-- Upward scan of `find_quantity_near`: try the offsets in order; an offset
reaching above the first line breaks the loop (`if j < 0: break`). -/
def lookUp (lines : List String) (idx : Nat) : List Nat → Option Nat
  | [] => none
  | o :: os =>
    if idx < o then none
    else
      match qAt lines (idx - o) with
      | some q => some q
      | none => lookUp lines idx os

/-- Downward scan of `find_quantity_near`: try the offsets in order; an
offset reaching past the last line breaks the loop (`if j >= len: break`). -/
def lookDown (lines : List String) (idx : Nat) : List Nat → Option Nat
  | [] => none
  | o :: os =>
    if lines.length ≤ idx + o then none
    else
      match qAt lines (idx + o) with
      | some q => some q
      | none => lookDown lines idx os

/-- Embedding of `find_quantity_near(lines, idx, radius=5)`: scan up to
`radius` lines strictly above the label line, nearest first; if nothing is
found there, scan up to `radius` lines strictly below, nearest first; default
to 1. -/
def find_quantity_near (lines : List String) (idx : Nat) (radius : Nat := 5) : Nat :=
  match lookUp lines idx (List.range' 1 radius) with
  | some q => q
  | none =>
    match lookDown lines idx (List.range' 1 radius) with
    | some q => q
    | none => 1

/-! ## Label detection (`LABEL_PATTERNS`, `LABEL_RE`, `parse_lines`) -/

/-- Continuation `\s*:\s*(.*)\s*$` of `LABEL_RE` after an alternative has
matched: optional whitespace, a colon, then the group `(.*)` which greedily
captures the whole rest of the line after the post-colon whitespace (the
trailing `\s*$` then matches the empty string). -/
def contColon (r : List Char) : Option (List Char) :=
  match r.dropWhile isPySpace with
  | c :: v => if c == ':' then some (v.dropWhile isPySpace) else none
  | [] => none

/-- One alternative of `LABEL_RE` made of a plain literal (colon removed, as
the source strips it before joining), followed by the continuation. -/
def altLit (pat : String) (s : List Char) : Option (List Char) :=
  match lcLit pat.data s with
  | some r => contColon r
  | none => none

/-- The alternative `Product Size\s*-\s*Style` of `LABEL_RE`, followed by the
continuation.  The classes around the mandatory hyphen are disjoint, so
greedy scanning is exact. -/
def altProd (s : List Char) : Option (List Char) :=
  match lcLit ("product size".data) s with
  | none => none
  | some r =>
    match r.dropWhile isPySpace with
    | [] => none
    | c :: r2 =>
      if c == '-' then
        match lcLit ("style".data) (r2.dropWhile isPySpace) with
        | some r3 => contColon r3
        | none => none
      else none

/-- The alternation of `LABEL_RE` in source order (`Size/Style`,
`Shirt Size/Style`, `Shirt Size`, `Product Size\s*-\s*Style`, `Product Size`,
`Style`, `Size`), each followed by the continuation; regex backtracking moves
to the next alternative when the continuation fails. -/
def labelValue (s : List Char) : Option (List Char) :=
  (altLit "size/style" s).orElse (fun _ =>
  (altLit "shirt size/style" s).orElse (fun _ =>
  (altLit "shirt size" s).orElse (fun _ =>
  (altProd s).orElse (fun _ =>
  (altLit "product size" s).orElse (fun _ =>
  (altLit "style" s).orElse (fun _ =>
  (altLit "size" s)))))))

/-- Embedding of `LABEL_RE.match(line)`, returning the captured group:
`^\s*` then the alternation.  The alternatives all start with a non-space
letter, so the maximal munch of the anchored `\s*` is exact. -/
def LABEL_RE_match (line : String) : Option String :=
  (labelValue (line.data.dropWhile isPySpace)).map String.mk

/-! ## Key normalization (`normalize_key`) -/

/-- Python `str.strip`: remove leading and trailing whitespace. -/
def pyStrip (l : List Char) : List Char :=
  ((l.dropWhile isPySpace).reverse.dropWhile isPySpace).reverse

/-- Left-to-right scan implementing `re.sub(r"\s+", " ", s)`: the flag
records whether the scan stands inside a whitespace run whose single
replacement space has already been emitted. -/
def subWsA : Bool → List Char → List Char
  | _, [] => []
  | inRun, c :: cs =>
    if isPySpace c then
      if inRun then subWsA true cs else ' ' :: subWsA true cs
    else c :: subWsA false cs

/-- Embedding of `re.sub(r"\s+", " ", s)`: replace every maximal whitespace
run by one space. -/
def subWs (l : List Char) : List Char := subWsA false l

/-- Replacement of the en dash and em dash by an ASCII hyphen, as the two
`str.replace` calls of `normalize_key`. -/
def dashRepl (c : Char) : Char :=
  if c == Char.ofNat 0x2013 then '-' else if c == Char.ofNat 0x2014 then '-' else c

/-- Embedding of `normalize_key`: strip, collapse whitespace runs to single
spaces, rewrite en/em dashes to hyphens. -/
def normalize_key (s : String) : String :=
  String.mk ((subWs (pyStrip s.data)).map dashRepl)

/-- Replacement of non-breaking spaces by plain spaces, as
`ln.replace("\xa0", " ")` in `parse_lines`. -/
def nbspFix (s : String) : String :=
  String.mk (s.data.map (fun c => if c == Char.ofNat 0xA0 then ' ' else c))

/-- Embedding of `parse_lines`: fix non-breaking spaces, then for every line
matched by `LABEL_RE` emit the stripped captured value paired with the
quantity resolved by `find_quantity_near` at radius 5.  The `max_blank`
parameter is accepted and ignored, as in the source. -/
def parse_lines (lines : List String) (max_blank : Nat := 2) : List (String × Nat) :=
  let lines_list := lines.map nbspFix
  lines_list.enum.filterMap (fun p =>
    match LABEL_RE_match p.2 with
    | some v => some (String.mk (pyStrip v.data), find_quantity_near lines_list p.1 5)
    | none => none)

/-! ## Aggregation (`normalize_key` buckets, `summarize`) -/

/-- One `agg[key] += q` step on the insertion-ordered association list that
models the Python `defaultdict(int)`: add to the first matching key, or
append a fresh bucket at the end. -/
def addToAgg : List (String × Int) → String → Int → List (String × Int)
  | [], k, q => [(k, q)]
  | (k', v) :: rest, k, q =>
    if k' == k then (k', v + q) :: rest
    else (k', v) :: addToAgg rest k q

/-- The aggregation loop of `summarize`: fold the entries, bucketing by
normalized key. -/
def summarizeAgg (entries : List (String × Int)) : List (String × Int) :=
  entries.foldl (fun agg e => addToAgg agg (normalize_key e.1) e.2) []

/-- Lowercased character list of a string, modelling `str.lower` (ASCII
core, as `Char.toLower`). -/
def lc (s : String) : List Char := s.data.map Char.toLower

/-- Embedding of `is_hoodie`: the key contains one of the `HOODIE_MARKERS`
(`"hooded sweatshirt"`, `"unisex hoodie"`), case-insensitively. -/
def is_hoodie (txt : String) : Bool :=
  containsQ ("hooded sweatshirt".data) (lc txt) || containsQ ("unisex hoodie".data) (lc txt)

/-- Embedding of `is_sweatshirt_nonhoodie`. -/
def is_sweatshirt_nonhoodie (txt : String) : Bool :=
  containsQ ("sweatshirt".data) (lc txt) && !(is_hoodie txt)

/-- Result record of `summarize` (the `ExtractionResult` dataclass). -/
structure ExtractionResult where
  agg : List (String × Int)
  unique_count : Nat
  sweatshirt_nonhoodie_total : Int
  hoodie_total : Int
deriving Repr, DecidableEq

/-- Embedding of `summarize`: aggregate, then compute the hoodie and
non-hoodie sweatshirt totals over the aggregate. -/
def summarize (entries : List (String × Int)) : ExtractionResult :=
  let agg := summarizeAgg entries
  { agg := agg
    unique_count := agg.length
    sweatshirt_nonhoodie_total := ((agg.filter (fun p => is_sweatshirt_nonhoodie p.1)).map (fun p => p.2)).sum
    hoodie_total := ((agg.filter (fun p => is_hoodie p.1)).map (fun p => p.2)).sum }

/-! ## Categorizer (`category_rank`) -/

/-- Head of the rest of the input is a word character (the state consulted by
a trailing `\b` assertion). -/
def headWord : List Char → Bool
  | [] => false
  | c :: _ => pyWordChar c

/-- Word-bounded literal at the head of the input: the token, then a trailing
word boundary.  The leading boundary is checked by the search loop. -/
def litWB (pat : List Char) (s : List Char) : Bool :=
  match dropLit pat s with
  | some r => !(headWord r)
  | none => false

/-- Generic leftmost `re.search` loop for a token that must start at a word
boundary: `prev` records whether the previous character is a word character. -/
def searchWBTok (tokAt : List Char → Bool) : Bool → List Char → Bool
  | _, [] => false
  | prev, c :: cs => (!prev && tokAt (c :: cs)) || searchWBTok tokAt (pyWordChar c) cs

/-- Token of `toddler_pat`, `\b[2-5]t\b`, at the current position (trailing
boundary included; leading boundary is the search loop's). -/
def toddlerTokAt : List Char → Bool
  | a :: b :: r => ('2' ≤ a && a ≤ '5') && b == 't' && !(headWord r)
  | _ => false

/-- Embedding of `re.search(toddler_pat, n)` on a lowercased key. -/
def tdSearch (n : List Char) : Bool := searchWBTok toddlerTokAt false n

/-- Gap `\s*-?\s*` inside `short\s*-?\s*sleeve` and `t\s*-?\s*shirt`:
whitespace, an optional hyphen, whitespace (all classes disjoint, so greedy
scanning is exact). -/
def gapHyphen (r : List Char) : List Char :=
  let a := r.dropWhile isPySpace
  match a with
  | c :: t => if c == '-' then t.dropWhile isPySpace else a
  | [] => a

/-- One position of `short_sleeve_pat`
`(shortsleeve|short\s*-?\s*sleeve|t\s*-?\s*shirt|tshirt|\btee\b)`:
only the `tee` alternative carries word boundaries. -/
def ssTokAt (prev : Bool) (s : List Char) : Bool :=
  (dropLit ("shortsleeve".data) s).isSome ||
  (match dropLit ("short".data) s with
   | some r => (dropLit ("sleeve".data) (gapHyphen r)).isSome
   | none => false) ||
  (match s with
   | c :: r => c == 't' && (dropLit ("shirt".data) (gapHyphen r)).isSome
   | [] => false) ||
  (dropLit ("tshirt".data) s).isSome ||
  (!prev && litWB ("tee".data) s)

/-- Leftmost search loop for `short_sleeve_pat`. -/
def searchSS : Bool → List Char → Bool
  | _, [] => false
  | prev, c :: cs => ssTokAt prev (c :: cs) || searchSS (pyWordChar c) cs

/-- Embedding of `re.search(short_sleeve_pat, n)` on a lowercased key. -/
def ssSearch (n : List Char) : Bool := searchSS false n

/-- Size token of `size_pat` `\b(xs|s|m|l|xl|[2-6]xl)\b` at the current
position, returning its index in the `size_order` table
`[xs, s, m, l, xl, 2xl, 3xl, 4xl, 5xl, 6xl]`; alternatives in regex order. -/
def sizeTokAt (l : List Char) : Option Nat :=
  if litWB ("xs".data) l then some 0
  else if litWB ("s".data) l then some 1
  else if litWB ("m".data) l then some 2
  else if litWB ("l".data) l then some 3
  else if litWB ("xl".data) l then some 4
  else
    match l with
    | a :: b :: c :: r =>
      if ('2' ≤ a && a ≤ '6') && b == 'x' && c == 'l' && !(headWord r) then
        some (a.toNat - ('0').toNat + 3)
      else none
    | _ => none

/-- Leftmost `re.search(size_pat, ...)` returning the `size_order` index of
the first standalone size token. -/
def searchSizeIdx : Bool → List Char → Option Nat
  | _, [] => none
  | prev, c :: cs =>
    match (if prev then none else sizeTokAt (c :: cs)) with
    | some r => some r
    | none => searchSizeIdx (pyWordChar c) cs

/-- Rule 0 of `category_rank`: sweatshirts that are not hoodies. -/
def rule0 (s : String) : Bool :=
  let n := lc s
  containsQ ("sweatshirt".data) n && !(containsQ ("hooded".data) n) && !(containsQ ("hoodie".data) n)

/-- Rule 1: long sleeve. -/
def rule1 (s : String) : Bool :=
  let n := lc s
  containsQ ("long sleeve".data) n || containsQ ("long-sleeve".data) n || containsQ ("longsleeve".data) n

/-- Rule 2: hoodies (`hooded sweatshirt`, `unisex hoodie`, or the whole word
`hoodie`). -/
def rule2 (s : String) : Bool :=
  let n := lc s
  containsQ ("hooded sweatshirt".data) n || containsQ ("unisex hoodie".data) n ||
    searchWBTok (litWB ("hoodie".data)) false n

/-- Rule 10: v-necks. -/
def rule10 (s : String) : Bool :=
  let n := lc s
  containsQ ("v-neck".data) n || containsQ ("v neck".data) n || containsQ ("vneck".data) n

/-- Rule 3: adult/unisex short sleeve or tee (not youth/toddler). -/
def rule3 (s : String) : Bool :=
  let n := lc s
  ssSearch n && !(containsQ ("youth".data) n || tdSearch n || containsQ ("toddler".data) n)

/-- Rule 3b: standalone `unisex` with a standalone size token. -/
def rule3b (s : String) : Bool :=
  let n := lc s
  containsQ ("unisex".data) n &&
  !(containsQ ("hoodie".data) n || containsQ ("hooded".data) n || containsQ ("sweatshirt".data) n) &&
  !(containsQ ("v-neck".data) n || containsQ ("v neck".data) n || containsQ ("vneck".data) n) &&
  !(containsQ ("youth".data) n || containsQ ("toddler".data) n || tdSearch n) &&
  (searchSizeIdx false n).isSome

/-- Rule 4: youth short sleeve / tee. -/
def rule4 (s : String) : Bool :=
  let n := lc s
  ssSearch n && containsQ ("youth".data) n

/-- Rule 5: other youth. -/
def rule5 (s : String) : Bool := containsQ ("youth".data) (lc s)

/-- Rule 6: toddler short sleeve (`\b[2-5]t\b` and `(short|tee|shirt)`). -/
def rule6 (s : String) : Bool :=
  let n := lc s
  tdSearch n && (containsQ ("short".data) n || containsQ ("tee".data) n || containsQ ("shirt".data) n)

/-- Rule 7: other toddler. -/
def rule7 (s : String) : Bool :=
  let n := lc s
  tdSearch n || containsQ ("toddler".data) n

/-- Rule 8: onesie / baby bodysuit. -/
def rule8 (s : String) : Bool :=
  let n := lc s
  containsQ ("onesie".data) n || containsQ ("baby bodysuit".data) n || containsQ ("bodysuit".data) n

/-- Embedding of `category_rank`: the if-chain of the source, in source
order, with 11 as the unconditional fallback. -/
def category_rank (s : String) : Nat :=
  if rule0 s then 0
  else if rule1 s then 1
  else if rule2 s then 2
  else if rule10 s then 10
  else if rule3 s then 3
  else if rule3b s then 3
  else if rule4 s then 4
  else if rule5 s then 5
  else if rule6 s then 6
  else if rule7 s then 7
  else if rule8 s then 8
  else 11

/-- Rule table of the categorizer in its fixed evaluation order, as the spec
presents it: ranks 0, 1, 2, 10, 3, 3b, 4, 5, 6, 7, 8, fallback 11. -/
def ruleList : List ((String → Bool) × Nat) :=
  [(rule0, 0), (rule1, 1), (rule2, 2), (rule10, 10), (rule3, 3), (rule3b, 3),
   (rule4, 4), (rule5, 5), (rule6, 6), (rule7, 7), (rule8, 8)]

/-- First-match evaluation of an ordered rule table, with fallback 11. -/
def firstRank : List ((String → Bool) × Nat) → String → Nat
  | [], _ => 11
  | pr :: rest, s => if pr.1 s then pr.2 else firstRank rest s

/-- The categorizer as described by the spec: evaluate the ordered table and
return the rank of the first rule whose predicate holds. -/
def rulesEval (s : String) : Nat := firstRank ruleList s

/-! ## Size ranking and sorting (`to_dataframe`) -/

/-- Embedding of the local `size_rank` of `to_dataframe`: `size_order` index
of the first standalone size token of the lowercased key, or 10 (the table
length) when there is none. -/
def size_rank (name : String) : Nat := (searchSizeIdx false (lc name)).getD 10

/-- The `sort_key` of `to_dataframe`: category rank, then size rank, then the
lowercased key. -/
def sortKey (k : String) : Nat × Nat × List Char := (category_rank k, size_rank k, lc k)

/-- Code-point comparison of character lists, the order Python uses on
`str`. -/
def charListLeb : List Char → List Char → Bool
  | [], _ => true
  | _ :: _, [] => false
  | a :: as, b :: bs => decide (a < b) || (a == b && charListLeb as bs)

/-- Lexicographic comparison of Python's `sort_key` tuples. -/
def rowLEb (x y : String × Int) : Bool :=
  let a := sortKey x.1
  let b := sortKey y.1
  decide (a.1 < b.1) ||
    (a.1 == b.1 && (decide (a.2.1 < b.2.1) || (a.2.1 == b.2.1 && charListLeb a.2.2 b.2.2)))

/-- Stable insertion into a sorted list (the building block of a stable sort,
which is what Python's `sorted` guarantees). -/
def ordIns (le : String × Int → String × Int → Bool) (a : String × Int) :
    List (String × Int) → List (String × Int)
  | [] => [a]
  | b :: l => if le a b then a :: b :: l else b :: ordIns le a l

/-- Stable insertion sort; on a total preorder it computes the same list as
any other stable sort, in particular Python's `sorted`. -/
def insSort (le : String × Int → String × Int → Bool) :
    List (String × Int) → List (String × Int)
  | [] => []
  | a :: l => ordIns le a (insSort le l)

/-- Embedding of the row ordering of `to_dataframe`:
`sorted(agg.items(), key=sort_key)`. -/
def to_dataframe_rows (agg : List (String × Int)) : List (String × Int) :=
  insSort rowLEb agg

/-! ## Export filters (`save_outputs`) and the category summary
(`summarize_by_category` of the web front end) -/

/-- The hoodie filter of `save_outputs`: the row label matches the
case-insensitive regex `hooded sweatshirt|unisex hoodie`. -/
def hoodFilterB (k : String) : Bool :=
  containsQ ("hooded sweatshirt".data) (lc k) || containsQ ("unisex hoodie".data) (lc k)

/-- The sweatshirt filter of `save_outputs`: contains `sweatshirt` and does
not match the hoodie filter. -/
def sweatFilterB (k : String) : Bool :=
  containsQ ("sweatshirt".data) (lc k) && !(hoodFilterB k)

/-- Counters returned by `summarize_by_category` in `streamlit_app.py`. -/
structure CatSummary where
  total_items : Int
  sweatshirts : Int
  hoodies : Int
  adult_tees : Int
  vnecks : Int
  longsleeves : Int
  youth : Int
  toddler : Int
  onesie : Int
  apron : Int
  tote : Int
deriving Repr, DecidableEq

/-- Loop body of `summarize_by_category` for one `(style, q)` item. -/
def catStep (acc : CatSummary) (item : String × Int) : CatSummary :=
  let cat := category_rank item.1
  let s_lower := lc item.1
  let q := item.2
  let acc :=
    if containsQ ("sweatshirt".data) s_lower && !(containsQ ("hoodie".data) s_lower) &&
        !(containsQ ("hooded".data) s_lower) then
      { acc with sweatshirts := acc.sweatshirts + q } else acc
  let acc :=
    if containsQ ("hoodie".data) s_lower || containsQ ("hooded sweatshirt".data) s_lower ||
        containsQ ("unisex hoodie".data) s_lower then
      { acc with hoodies := acc.hoodies + q } else acc
  let acc :=
    if cat == 1 then { acc with longsleeves := acc.longsleeves + q }
    else if cat == 3 then { acc with adult_tees := acc.adult_tees + q }
    else if cat == 4 || cat == 5 then { acc with youth := acc.youth + q }
    else if cat == 6 || cat == 7 then { acc with toddler := acc.toddler + q }
    else if cat == 8 then { acc with onesie := acc.onesie + q }
    else if cat == 10 then { acc with vnecks := acc.vnecks + q }
    else acc
  let acc := if containsQ ("apron".data) s_lower then { acc with apron := acc.apron + q } else acc
  if containsQ ("tote".data) s_lower then { acc with tote := acc.tote + q } else acc

/-- Embedding of `summarize_by_category`: total item count, then the loop
over the aggregate items. -/
def summarize_by_category (agg : List (String × Int)) : CatSummary :=
  agg.foldl catStep
    { total_items := (agg.map (fun p => p.2)).sum
      sweatshirts := 0, hoodies := 0, adult_tees := 0, vnecks := 0, longsleeves := 0
      youth := 0, toddler := 0, onesie := 0, apron := 0, tote := 0 }

/-! ## C4: totality of the categorizer -/

/-- C4: the categorizer is total: for every input string, including the empty
string, `category_rank` returns a value in the range [0,11] (in this
embedding the function is total by construction, so it never raises; its
codomain is `Nat`, so the lower bound 0 is intrinsic). -/
theorem categorizer_total :
    (∀ s : String, category_rank s ≤ 11) ∧ category_rank "" = 11 := by
  constructor
  · intro s
    unfold category_rank
    repeat' split
    all_goals omega
  · decide

/-! ## C5: fixed rule order and the category assignment examples -/

/-- C5: `category_rank` evaluates the rule table in the fixed order
0, 1, 2, 10, 3, 3b, 4, 5, 6, 7, 8 with fallback 11 and returns the rank of
the first rule whose predicate holds (`rulesEval`), and on the spec's
examples: "Hooded Sweatshirt - L" ↦ 2, "Sweatshirt - L" ↦ 0,
"Youth T-Shirt - M" ↦ 4, "Toddler 3T" ↦ 7, "Unisex XL" ↦ 3,
"Canvas Tote Bag" ↦ 11 while its quantity still reaches the tote summary
total, which ignores category rank. -/
theorem category_rank_first_match :
    (∀ s : String, category_rank s = rulesEval s) ∧
    category_rank "Hooded Sweatshirt - L" = 2 ∧
    category_rank "Sweatshirt - L" = 0 ∧
    category_rank "Youth T-Shirt - M" = 4 ∧
    category_rank "Toddler 3T" = 7 ∧
    category_rank "Unisex XL" = 3 ∧
    category_rank "Canvas Tote Bag" = 11 ∧
    (summarize_by_category [("Canvas Tote Bag", 4)]).tote = 4 :=
  ⟨fun _ => rfl, by decide, by decide, by decide, by decide, by decide, by decide, by decide⟩

/-! ## C1: the proximity quantity resolver -/

/-- Upward scan lemma: if `o` is the nearest offset in the window
`[s, s+n)` whose line parses to a quantity, the scan returns it. -/
theorem lookUp_found (lines : List String) (idx : Nat) (q : Nat) :
    ∀ n s o, s ≤ o → o < s + n → o ≤ idx →
      (∀ o', o' < o → s ≤ o' → qAt lines (idx - o') = none) →
      qAt lines (idx - o) = some q →
      lookUp lines idx (List.range' s n) = some q := by
  intro n
  induction n with
  | zero => intro s o h1 h2; omega
  | succ n ih =>
    intro s o h1 h2 h3 hmin hq
    rw [List.range'_succ]
    unfold lookUp
    have hsi : ¬ idx < s := by omega
    simp only [hsi, if_false]
    rcases Nat.eq_or_lt_of_le h1 with he | hlt
    · subst he
      rw [hq]
    · have hnone : qAt lines (idx - s) = none := hmin s hlt (Nat.le_refl s)
      rw [hnone]
      exact ih (s + 1) o hlt (by omega) h3 (fun o' ho' hs' => hmin o' ho' (by omega)) hq

/-- Upward scan lemma: if every offset of the window fails (offsets past the
top of the file excluded, since the loop breaks there), the scan fails. -/
theorem lookUp_none (lines : List String) (idx : Nat) :
    ∀ n s, (∀ o, o < s + n → s ≤ o → o ≤ idx → qAt lines (idx - o) = none) →
      lookUp lines idx (List.range' s n) = none := by
  intro n
  induction n with
  | zero => intro s h; rfl
  | succ n ih =>
    intro s h
    rw [List.range'_succ]
    unfold lookUp
    by_cases hsi : idx < s
    · simp only [hsi, if_true]
    · simp only [hsi, if_false]
      rw [h s (by omega) (Nat.le_refl s) (by omega)]
      exact ih (s + 1) (fun o ho hs ho2 => h o (by omega) (by omega) ho2)

/-- Downward scan lemma: nearest matching offset wins. -/
theorem lookDown_found (lines : List String) (idx : Nat) (q : Nat) :
    ∀ n s o, s ≤ o → o < s + n → idx + o < lines.length →
      (∀ o', o' < o → s ≤ o' → qAt lines (idx + o') = none) →
      qAt lines (idx + o) = some q →
      lookDown lines idx (List.range' s n) = some q := by
  intro n
  induction n with
  | zero => intro s o h1 h2; omega
  | succ n ih =>
    intro s o h1 h2 h3 hmin hq
    rw [List.range'_succ]
    unfold lookDown
    have hsi : ¬ lines.length ≤ idx + s := by omega
    simp only [hsi, if_false]
    rcases Nat.eq_or_lt_of_le h1 with he | hlt
    · subst he
      rw [hq]
    · have hnone : qAt lines (idx + s) = none := hmin s hlt (Nat.le_refl s)
      rw [hnone]
      exact ih (s + 1) o hlt (by omega) h3 (fun o' ho' hs' => hmin o' ho' (by omega)) hq

/-- Downward scan lemma: if every in-range offset of the window fails, the
scan fails. -/
theorem lookDown_none (lines : List String) (idx : Nat) :
    ∀ n s, (∀ o, o < s + n → s ≤ o → idx + o < lines.length → qAt lines (idx + o) = none) →
      lookDown lines idx (List.range' s n) = none := by
  intro n
  induction n with
  | zero => intro s h; rfl
  | succ n ih =>
    intro s h
    rw [List.range'_succ]
    unfold lookDown
    by_cases hsi : lines.length ≤ idx + s
    · simp only [hsi, if_true]
    · simp only [hsi, if_false]
      rw [h s (by omega) (Nat.le_refl s) (by omega)]
      exact ih (s + 1) (fun o ho hs ho2 => h o (by omega) (by omega) ho2)

/-- C1: the quantity resolver returns the quantity of the nearest
quantity-declaring line at most `radius` lines strictly above the label line
when there is one; otherwise the nearest at most `radius` lines strictly
below; otherwise 1.  Since the whole upward window is exhausted before the
downward window is entered, an upward match at any distance within the radius
beats a downward match at any distance. -/
theorem find_quantity_near_spec (lines : List String) (idx radius : Nat)
    (hidx : idx < lines.length) :
    (∀ o q, 1 ≤ o → o ≤ radius → o ≤ idx →
      (∀ o', o' < o → 1 ≤ o' → qAt lines (idx - o') = none) →
      qAt lines (idx - o) = some q →
      find_quantity_near lines idx radius = q) ∧
    ((∀ o, o ≤ radius → 1 ≤ o → o ≤ idx → qAt lines (idx - o) = none) →
      ∀ o q, 1 ≤ o → o ≤ radius → idx + o < lines.length →
        (∀ o', o' < o → 1 ≤ o' → qAt lines (idx + o') = none) →
        qAt lines (idx + o) = some q →
        find_quantity_near lines idx radius = q) ∧
    ((∀ o, o ≤ radius → 1 ≤ o → o ≤ idx → qAt lines (idx - o) = none) →
      (∀ o, o ≤ radius → 1 ≤ o → idx + o < lines.length → qAt lines (idx + o) = none) →
      find_quantity_near lines idx radius = 1) := by
  refine ⟨?_, ?_, ?_⟩
  · intro o q h1 h2 h3 hmin hq
    unfold find_quantity_near
    rw [lookUp_found lines idx q radius 1 o h1 (by omega) h3
      (fun o' ho' hs' => hmin o' ho' hs') hq]
  · intro hup o q h1 h2 h3 hmin hq
    unfold find_quantity_near
    rw [lookUp_none lines idx radius 1 (fun o' ho' hs' ho2 => hup o' (by omega) hs' ho2)]
    rw [lookDown_found lines idx q radius 1 o h1 (by omega) h3
      (fun o' ho' hs' => hmin o' ho' hs') hq]
  · intro hup hdown
    unfold find_quantity_near
    rw [lookUp_none lines idx radius 1 (fun o' ho' hs' ho2 => hup o' (by omega) hs' ho2)]
    rw [lookDown_none lines idx radius 1 (fun o' ho' hs' ho2 => hdown o' (by omega) hs' ho2)]

/-- Witness for C1, the spec's directional-precedence example: a quantity
line of value 7 three lines above the label beats a quantity line of value 2
one line below. -/
theorem find_quantity_near_spec_witness :
    find_quantity_near ["Qty: 7", "some text", "more text", "Style: M", "Qty: 2"] 3 5 = 7 :=
  (find_quantity_near_spec ["Qty: 7", "some text", "more text", "Style: M", "Qty: 2"] 3 5
    (by decide)).1 3 7 (by decide) (by decide) (by decide)
    (by decide) (by decide)

/-! ## C9: the sum invariant of aggregation -/

/-- Sum of the bucket values of an aggregate. -/
def sumVals (al : List (String × Int)) : Int := (al.map (fun p => p.2)).sum

/-- One aggregation step adds exactly its quantity to the value total. -/
theorem sumVals_addToAgg (agg : List (String × Int)) (k : String) (q : Int) :
    sumVals (addToAgg agg k q) = sumVals agg + q := by
  induction agg with
  | nil => simp [addToAgg, sumVals]
  | cons e rest ih =>
    obtain ⟨k', v⟩ := e
    unfold addToAgg
    by_cases h : (k' == k) = true
    · simp only [h, if_true]
      simp [sumVals]
      ring
    · simp only [h, if_false]
      simp [sumVals] at ih ⊢
      omega

/-- The aggregation fold adds the total quantity of the entries to the value
total of the accumulator. -/
theorem sumVals_fold (l : List (String × Int)) :
    ∀ agg, sumVals (l.foldl (fun a e => addToAgg a (normalize_key e.1) e.2) agg) =
      sumVals agg + sumVals l := by
  induction l with
  | nil => intro agg; simp [sumVals]
  | cons e rest ih =>
    intro agg
    simp only [List.foldl_cons]
    rw [ih (addToAgg agg (normalize_key e.1) e.2), sumVals_addToAgg]
    simp [sumVals]
    ring

/-- C9: for every entry list, the values of the aggregate returned by
`summarize` sum to the total quantity of the input entries; in particular the
two spellings of `Style: Hooded Sweatshirt - L` (quantities 2 and 3)
normalize to the same key and end in a single bucket of total 5. -/
theorem summarize_sum_invariant :
    (∀ entries : List (String × Int), sumVals (summarize entries).agg = sumVals entries) ∧
    (summarize [("Style: Hooded Sweatshirt - L", 2), ("Style:  Hooded   Sweatshirt - L", 3)]).agg =
      [("Style: Hooded Sweatshirt - L", 5)] := by
  constructor
  · intro entries
    show sumVals (summarizeAgg entries) = sumVals entries
    unfold summarizeAgg
    rw [sumVals_fold]
    simp [sumVals]
  · decide

/-! ## C8: order-independence of aggregation -/

/-- First-match lookup in the association list modelling the Python dict. -/
def lookupA : List (String × Int) → String → Option Int
  | [], _ => none
  | (k, v) :: rest, key => if k == key then some v else lookupA rest key

/-- Total quantity of the entries of `l` normalizing to key `k`. -/
def keyTotal (l : List (String × Int)) (k : String) : Int :=
  ((l.filter (fun e => normalize_key e.1 == k)).map (fun e => e.2)).sum

/-- Key list of an aggregate. -/
def keysOf (al : List (String × Int)) : List String := al.map (fun p => p.1)

/-- An aggregation step either updates an existing bucket or appends the new
key at the end. -/
theorem keysOf_addToAgg (agg : List (String × Int)) (k : String) (q : Int) :
    keysOf (addToAgg agg k q) = keysOf agg ∨
      keysOf (addToAgg agg k q) = keysOf agg ++ [k] := by
  induction agg with
  | nil => right; rfl
  | cons e rest ih =>
    obtain ⟨k', v⟩ := e
    unfold addToAgg
    by_cases h : k' = k
    · left; simp [h, keysOf]
    · simp only [beq_iff_eq, h, if_false]
      rcases ih with h1 | h1
      · left; simp only [keysOf, List.map_cons] at h1 ⊢; rw [h1]
      · right; simp only [keysOf, List.map_cons] at h1 ⊢; rw [h1]; rfl

/-- An aggregation step preserves distinctness of the bucket keys. -/
theorem nodup_addToAgg (agg : List (String × Int)) (k : String) (q : Int)
    (h : (keysOf agg).Nodup) : (keysOf (addToAgg agg k q)).Nodup := by
  induction agg with
  | nil => simp [addToAgg, keysOf]
  | cons e rest ih =>
    obtain ⟨k', v⟩ := e
    simp only [keysOf, List.map_cons, List.nodup_cons] at h
    unfold addToAgg
    by_cases hk : k' = k
    · simp only [beq_iff_eq, hk, if_true]
      simp only [keysOf, List.map_cons, List.nodup_cons]
      exact ⟨hk ▸ h.1, h.2⟩
    · simp only [beq_iff_eq, hk, if_false]
      simp only [keysOf, List.map_cons, List.nodup_cons]
      refine ⟨?_, ih h.2⟩
      intro hmem
      rcases keysOf_addToAgg rest k q with he | he
      · simp only [keysOf] at he; rw [he] at hmem; exact h.1 hmem
      · simp only [keysOf] at he; rw [he] at hmem
        rcases List.mem_append.mp hmem with hm | hm
        · exact h.1 hm
        · simp only [List.mem_singleton] at hm
          exact hk hm

/-- Lookup after one aggregation step, at the stepped key. -/
theorem lookupA_addToAgg_same (agg : List (String × Int)) (k : String) (q : Int) :
    lookupA (addToAgg agg k q) k = some ((lookupA agg k).getD 0 + q) := by
  induction agg with
  | nil => simp [addToAgg, lookupA]
  | cons e rest ih =>
    obtain ⟨k', v⟩ := e
    unfold addToAgg
    by_cases h : k' = k
    · simp [lookupA, h]
    · simp [lookupA, h, ih]

/-- Lookup after one aggregation step, at any other key. -/
theorem lookupA_addToAgg_other (agg : List (String × Int)) (k k' : String) (q : Int)
    (h : k' ≠ k) : lookupA (addToAgg agg k q) k' = lookupA agg k' := by
  induction agg with
  | nil => simp [addToAgg, lookupA, Ne.symm h]
  | cons e rest ih =>
    obtain ⟨k0, v⟩ := e
    unfold addToAgg
    by_cases h0 : k0 = k
    · subst h0
      simp [lookupA, Ne.symm h]
    · by_cases h1 : k0 = k'
      · subst h1
        simp [lookupA, h0]
      · simp [lookupA, h0, h1, ih]

/-- Lookup in the aggregation fold: a key is present iff some entry
normalizes to it (or it was already in the accumulator), and its value is the
accumulator's value plus the total of the matching entries. -/
theorem lookupA_fold (l : List (String × Int)) :
    ∀ (agg : List (String × Int)) (k : String),
      lookupA (l.foldl (fun a e => addToAgg a (normalize_key e.1) e.2) agg) k =
        if (∃ e ∈ l, normalize_key e.1 = k) ∨ (lookupA agg k).isSome then
          some ((lookupA agg k).getD 0 + keyTotal l k)
        else none := by
  induction l with
  | nil =>
    intro agg k
    simp only [List.foldl_nil, List.not_mem_nil, false_and, exists_false, false_or]
    match hv : lookupA agg k with
    | some v => simp [keyTotal]
    | none => simp
  | cons e rest ih =>
    intro agg k
    simp only [List.foldl_cons]
    rw [ih (addToAgg agg (normalize_key e.1) e.2) k]
    by_cases hk : normalize_key e.1 = k
    · rw [hk, lookupA_addToAgg_same]
      have hex : (∃ x ∈ e :: rest, normalize_key x.1 = k) := ⟨e, List.mem_cons_self e rest, hk⟩
      rw [if_pos (by simp), if_pos (Or.inl hex)]
      have hkt : keyTotal (e :: rest) k = e.2 + keyTotal rest k := by
        simp only [keyTotal, List.filter_cons, hk, beq_self_eq_true, if_true, List.map_cons,
          List.sum_cons]
      rw [hkt]
      simp only [Option.getD_some]
      congr 1
      omega
    · rw [lookupA_addToAgg_other agg (normalize_key e.1) k e.2 (fun hc => hk hc.symm)]
      have hkt : keyTotal (e :: rest) k = keyTotal rest k := by
        simp only [keyTotal, List.filter_cons]
        rw [if_neg (by simp [hk])]
      rw [hkt]
      have hiff : ((∃ x ∈ e :: rest, normalize_key x.1 = k) ∨ (lookupA agg k).isSome = true) ↔
          ((∃ x ∈ rest, normalize_key x.1 = k) ∨ (lookupA agg k).isSome = true) := by
        constructor
        · rintro (⟨x, hx, hpx⟩ | hs)
          · rcases List.mem_cons.mp hx with he | hm
            · exact absurd (he ▸ hpx) hk
            · exact Or.inl ⟨x, hm, hpx⟩
          · exact Or.inr hs
        · rintro (⟨x, hx, hpx⟩ | hs)
          · exact Or.inl ⟨x, List.mem_cons_of_mem e hx, hpx⟩
          · exact Or.inr hs
      by_cases hc : (∃ x ∈ rest, normalize_key x.1 = k) ∨ (lookupA agg k).isSome = true
      · rw [if_pos hc, if_pos (hiff.mpr hc)]
      · rw [if_neg hc, if_neg (fun hcc => hc (hiff.mp hcc))]

/-- The aggregate produced by `summarizeAgg` has pairwise distinct keys. -/
theorem nodup_summarizeAgg (l : List (String × Int)) :
    (keysOf (summarizeAgg l)).Nodup := by
  unfold summarizeAgg
  have main : ∀ (l' : List (String × Int)) (agg : List (String × Int)),
      (keysOf agg).Nodup →
      (keysOf (l'.foldl (fun a e => addToAgg a (normalize_key e.1) e.2) agg)).Nodup := by
    intro l'
    induction l' with
    | nil => intro agg h; exact h
    | cons e rest ih =>
      intro agg h
      simp only [List.foldl_cons]
      exact ih _ (nodup_addToAgg agg (normalize_key e.1) e.2 h)
  exact main l [] (by simp [keysOf])

/-- In a distinct-key association list, membership of a pair coincides with
lookup. -/
theorem mem_iff_lookupA (al : List (String × Int)) (p : String × Int)
    (h : (keysOf al).Nodup) : p ∈ al ↔ lookupA al p.1 = some p.2 := by
  induction al with
  | nil => simp [lookupA]
  | cons e rest ih =>
    obtain ⟨k, v⟩ := e
    simp only [keysOf, List.map_cons, List.nodup_cons] at h
    simp only [List.mem_cons]
    unfold lookupA
    by_cases hk : k = p.1
    · rw [if_pos (beq_iff_eq.mpr hk)]
      constructor
      · rintro (he | hm)
        · rw [he]
        · exact absurd (hk ▸ List.mem_map.mpr ⟨p, hm, rfl⟩) h.1
      · intro hv
        left
        obtain ⟨p1, p2⟩ := p
        simp only [Option.some.injEq] at hv
        simp only at hk
        rw [Prod.mk.injEq]
        exact ⟨hk.symm, hv.symm⟩
    · rw [if_neg (by simp [hk])]
      rw [ih h.2]
      constructor
      · rintro (he | hm)
        · exact absurd (congrArg Prod.fst he).symm hk
        · exact hm
      · exact fun hl => Or.inr hl

/-- C8: aggregation is order-independent: permuting the entry list leaves the
aggregate mapping (as a set of key/total pairs) unchanged. -/
theorem summarize_perm_invariant (l₁ l₂ : List (String × Int)) (h : l₁.Perm l₂) :
    ∀ p : String × Int, p ∈ (summarize l₁).agg ↔ p ∈ (summarize l₂).agg := by
  intro p
  have h1 : (summarize l₁).agg = summarizeAgg l₁ := rfl
  have h2 : (summarize l₂).agg = summarizeAgg l₂ := rfl
  rw [h1, h2]
  rw [mem_iff_lookupA _ p (nodup_summarizeAgg l₁), mem_iff_lookupA _ p (nodup_summarizeAgg l₂)]
  unfold summarizeAgg
  rw [lookupA_fold l₁ [] p.1, lookupA_fold l₂ [] p.1]
  have hex : (∃ e ∈ l₁, normalize_key e.1 = p.1) ↔ (∃ e ∈ l₂, normalize_key e.1 = p.1) := by
    constructor
    · rintro ⟨x, hx, hpx⟩; exact ⟨x, h.mem_iff.mp hx, hpx⟩
    · rintro ⟨x, hx, hpx⟩; exact ⟨x, h.mem_iff.mpr hx, hpx⟩
  have hkt : keyTotal l₁ p.1 = keyTotal l₂ p.1 := by
    unfold keyTotal
    exact List.Perm.sum_eq (List.Perm.map _ (h.filter _))
  rw [hkt]
  by_cases hc : (∃ e ∈ l₁, normalize_key e.1 = p.1) ∨ (lookupA [] p.1).isSome
  · have hc2 : (∃ e ∈ l₂, normalize_key e.1 = p.1) ∨ (lookupA [] p.1).isSome :=
      hc.imp hex.mp id
    rw [if_pos hc, if_pos hc2]
  · have hc2 : ¬ ((∃ e ∈ l₂, normalize_key e.1 = p.1) ∨ (lookupA [] p.1).isSome) :=
      fun hcc => hc (hcc.imp hex.mpr id)
    rw [if_neg hc, if_neg hc2]

/-- Witness for C8 at a concrete transposition. -/
theorem summarize_perm_invariant_witness :
    (("Tee - M", (1 : Int)) ∈ (summarize [("Tee - M", 1), ("Apron", 2)]).agg) ↔
      (("Tee - M", (1 : Int)) ∈ (summarize [("Apron", 2), ("Tee - M", 1)]).agg) :=
  summarize_perm_invariant [("Tee - M", 1), ("Apron", 2)] [("Apron", 2), ("Tee - M", 1)]
    (List.Perm.swap _ _ _) ("Tee - M", 1)

/-! ## C7: idempotence of the key normalizer -/

/-- The head of a list is whitespace. -/
def headIsWS : List Char → Bool
  | [] => false
  | c :: _ => isPySpace c

/-- The last element of a list is whitespace. -/
def lastIsWS (l : List Char) : Bool :=
  match l.getLast? with
  | none => false
  | some c => isPySpace c

/-- No two adjacent whitespace characters. -/
def noRunB : List Char → Bool
  | [] => true
  | c :: cs => !(isPySpace c && headIsWS cs) && noRunB cs

/-- Every whitespace character is a plain space. -/
def allWsSp (l : List Char) : Bool := l.all (fun c => !(isPySpace c) || c == ' ')

/-- No en/em dash anywhere. -/
def noDashB (l : List Char) : Bool :=
  l.all (fun c => !(c == Char.ofNat 0x2013) && !(c == Char.ofNat 0x2014))

theorem lastIsWS_cons (c : Char) (cs : List Char) :
    lastIsWS (c :: cs) = if cs.isEmpty then isPySpace c else lastIsWS cs := by
  cases cs with
  | nil => rfl
  | cons d ds => simp [lastIsWS, List.getLast?]

/-- A whitespace-headed list is not produced by `dropWhile isPySpace`. -/
theorem headIsWS_dropWhile (l : List Char) :
    headIsWS (l.dropWhile isPySpace) = false := by
  induction l with
  | nil => rfl
  | cons c cs ih =>
    rw [List.dropWhile_cons]
    by_cases h : isPySpace c = true
    · rw [if_pos h]; exact ih
    · rw [if_neg h]
      simp only [headIsWS]
      exact Bool.not_eq_true _ ▸ h

/-- `dropWhile` is the identity on a list whose head fails the test. -/
theorem dropWhile_of_headF (l : List Char) (h : headIsWS l = false) :
    l.dropWhile isPySpace = l := by
  cases l with
  | nil => rfl
  | cons c cs =>
    simp only [headIsWS] at h
    rw [List.dropWhile_cons, if_neg (by simp [h])]

/-- Dropping a whitespace prefix does not change the last element. -/
theorem lastIsWS_dropWhile (l : List Char) (h : l.dropWhile isPySpace ≠ []) :
    lastIsWS (l.dropWhile isPySpace) = lastIsWS l := by
  induction l with
  | nil => rfl
  | cons c cs ih =>
    rw [List.dropWhile_cons]
    by_cases hc : isPySpace c = true
    · rw [List.dropWhile_cons, if_pos hc] at h
      rw [if_pos hc, ih h, lastIsWS_cons]
      have hcs : ¬ cs.isEmpty := by
        cases cs with
        | nil => simp [List.dropWhile] at h
        | cons d ds => simp
      rw [if_neg hcs]
    · rw [if_neg hc]

/-- An all-whitespace nonempty list has a whitespace last element. -/
theorem lastIsWS_of_all (l : List Char) (hne : l ≠ [])
    (hall : ∀ x ∈ l, isPySpace x = true) : lastIsWS l = true := by
  induction l with
  | nil => exact absurd rfl hne
  | cons c cs ih =>
    rw [lastIsWS_cons]
    cases cs with
    | nil => simp only [List.isEmpty_nil, if_true]; exact hall c (by simp)
    | cons d ds =>
      simp only [List.isEmpty_cons, if_false]
      exact ih (by simp) (fun x hx => hall x (List.mem_cons_of_mem c hx))

/-- The scan emits nothing only on all-whitespace input (run-continuation
state). -/
theorem subWsA_true_ne_nil (l : List Char) (hne : l ≠ [])
    (hlast : lastIsWS l = false) : subWsA true l ≠ [] := by
  induction l with
  | nil => exact absurd rfl hne
  | cons c cs ih =>
    unfold subWsA
    by_cases hc : isPySpace c = true
    · rw [if_pos hc, if_pos rfl]
      rw [lastIsWS_cons] at hlast
      cases cs with
      | nil =>
        simp only [List.isEmpty_nil, if_true] at hlast
        rw [hlast] at hc
        cases hc
      | cons d ds =>
        simp only [List.isEmpty_cons, if_false] at hlast
        exact ih (by simp) hlast
    · rw [if_neg hc]
      simp

/-- The scan in non-run state never emits nothing on nonempty input. -/
theorem subWsA_false_ne_nil (l : List Char) (hne : l ≠ []) : subWsA false l ≠ [] := by
  cases l with
  | nil => exact absurd rfl hne
  | cons c cs =>
    unfold subWsA
    by_cases hc : isPySpace c = true
    · rw [if_pos hc, if_neg (by simp)]
      simp
    · rw [if_neg hc]
      simp

/-- The scan in run state starts its output with a non-whitespace
character. -/
theorem headIsWS_subWsA_true (l : List Char) : headIsWS (subWsA true l) = false := by
  induction l with
  | nil => rfl
  | cons c cs ih =>
    unfold subWsA
    by_cases hc : isPySpace c = true
    · rw [if_pos hc, if_pos rfl]; exact ih
    · rw [if_neg hc]
      simp only [headIsWS]
      exact Bool.not_eq_true _ ▸ hc

/-- The scan preserves a non-whitespace head. -/
theorem headIsWS_subWsA_false (l : List Char) (h : headIsWS l = false) :
    headIsWS (subWsA false l) = false := by
  cases l with
  | nil => rfl
  | cons c cs =>
    simp only [headIsWS] at h
    unfold subWsA
    rw [if_neg (by simp [h])]
    simp only [headIsWS]
    exact h

/-- The scan output never has two adjacent whitespace characters. -/
theorem noRunB_subWsA (l : List Char) : ∀ b, noRunB (subWsA b l) = true := by
  induction l with
  | nil => intro b; rfl
  | cons c cs ih =>
    intro b
    unfold subWsA
    by_cases hc : isPySpace c = true
    · rw [if_pos hc]
      cases b with
      | true => rw [if_pos rfl]; exact ih true
      | false =>
        rw [if_neg (by simp)]
        simp only [noRunB]
        rw [headIsWS_subWsA_true cs, ih true]
        simp
    · rw [if_neg hc]
      simp only [noRunB]
      rw [ih false]
      simp only [Bool.not_eq_true] at hc
      simp [hc]

/-- Every whitespace character of the scan output is a plain space. -/
theorem allWsSp_subWsA (l : List Char) : ∀ b, allWsSp (subWsA b l) = true := by
  induction l with
  | nil => intro b; rfl
  | cons c cs ih =>
    intro b
    unfold subWsA
    by_cases hc : isPySpace c = true
    · rw [if_pos hc]
      cases b with
      | true => rw [if_pos rfl]; exact ih true
      | false =>
        rw [if_neg (by simp)]
        simp only [allWsSp, List.all_cons, Bool.and_eq_true]
        exact ⟨by decide, ih true⟩
    · rw [if_neg hc]
      simp only [allWsSp, List.all_cons, Bool.and_eq_true]
      refine ⟨?_, ih false⟩
      simp only [Bool.not_eq_true] at hc
      simp [hc]

/-- The scan preserves a non-whitespace last element. -/
theorem lastIsWS_subWsA (l : List Char) (hlast : lastIsWS l = false) :
    ∀ b, lastIsWS (subWsA b l) = false := by
  induction l with
  | nil => intro b; rfl
  | cons c cs ih =>
    intro b
    rw [lastIsWS_cons] at hlast
    unfold subWsA
    by_cases hc : isPySpace c = true
    · have hcs : ¬ cs.isEmpty := by
        cases cs with
        | nil => simp only [List.isEmpty_nil, if_true] at hlast; rw [hlast] at hc; cases hc
        | cons d ds => simp
      have hlcs : lastIsWS cs = false := by
        cases cs with
        | nil => simp at hcs
        | cons d ds => simpa using hlast
      rw [if_pos hc]
      cases b with
      | true => rw [if_pos rfl]; exact ih hlcs true
      | false =>
        rw [if_neg (by simp)]
        rw [lastIsWS_cons]
        have hne : subWsA true cs ≠ [] := by
          apply subWsA_true_ne_nil cs _ hlcs
          cases cs with
          | nil => simp at hcs
          | cons d ds => simp
        rw [if_neg (by simpa using hne)]
        exact ih hlcs true
    · rw [if_neg hc]
      rw [lastIsWS_cons]
      cases cs with
      | nil =>
        simp only [List.isEmpty_nil, if_true] at hlast ⊢
        simp only [subWsA, List.isEmpty_nil, if_true]
        exact hlast
      | cons d ds =>
        have hlcs : lastIsWS (d :: ds) = false := by simpa using hlast
        have hne : subWsA false (d :: ds) ≠ [] := subWsA_false_ne_nil _ (by simp)
        rw [if_neg (by simpa using hne)]
        exact ih hlcs false

/-- On a separated input (no whitespace runs, whitespace all spaces) the scan
is the identity. -/
theorem subWsA_fix (l : List Char) (hrun : noRunB l = true) (hsp : allWsSp l = true) :
    subWsA false l = l := by
  induction l with
  | nil => rfl
  | cons c cs ih =>
    simp only [noRunB, Bool.and_eq_true, Bool.not_eq_true'] at hrun
    simp only [allWsSp, List.all_cons, Bool.and_eq_true] at hsp
    unfold subWsA
    by_cases hc : isPySpace c = true
    · rw [if_pos hc, if_neg (by simp)]
      have hcsp : c = ' ' := by
        rcases Bool.or_eq_true_iff.mp hsp.1 with hh | hh
        · rw [hc] at hh; cases hh
        · exact eq_of_beq hh
      have hhead : headIsWS cs = false := by
        rcases Bool.and_eq_false_iff.mp hrun.1 with hh | hh
        · rw [hc] at hh; cases hh
        · exact hh
      have hstep : subWsA true cs = subWsA false cs := by
        cases cs with
        | nil => rfl
        | cons d ds =>
          simp only [headIsWS] at hhead
          simp [subWsA, hhead]
      rw [hcsp, hstep, ih hrun.2 (by simp only [allWsSp]; exact hsp.2)]
    · rw [if_neg hc]
      rw [ih hrun.2 (by simp only [allWsSp]; exact hsp.2)]

/-- Dash rewriting does not change whitespace status. -/
theorem isPySpace_dashRepl (c : Char) : isPySpace (dashRepl c) = isPySpace c := by
  unfold dashRepl
  by_cases h1 : (c == Char.ofNat 0x2013) = true
  · rw [if_pos h1, eq_of_beq h1]; decide
  · rw [if_neg (by simp at h1 ⊢; exact h1)]
    by_cases h2 : (c == Char.ofNat 0x2014) = true
    · rw [if_pos h2, eq_of_beq h2]; decide
    · rw [if_neg (by simp at h2 ⊢; exact h2)]

/-- Dash rewriting fixes whitespace characters. -/
theorem dashRepl_ws (c : Char) (h : isPySpace c = true) : dashRepl c = c := by
  unfold dashRepl
  by_cases h1 : (c == Char.ofNat 0x2013) = true
  · rw [eq_of_beq h1] at h; cases h
  · rw [if_neg (by simp at h1 ⊢; exact h1)]
    by_cases h2 : (c == Char.ofNat 0x2014) = true
    · rw [eq_of_beq h2] at h; cases h
    · rw [if_neg (by simp at h2 ⊢; exact h2)]

/-- Dash rewriting leaves no dashes behind. -/
theorem noDashB_map_dashRepl (l : List Char) : noDashB (l.map dashRepl) = true := by
  induction l with
  | nil => rfl
  | cons c cs ih =>
    simp only [List.map_cons, noDashB, List.all_cons, Bool.and_eq_true]
    refine ⟨?_, by simpa [noDashB] using ih⟩
    unfold dashRepl
    by_cases h1 : (c == Char.ofNat 0x2013) = true
    · rw [if_pos h1]; decide
    · rw [if_neg (by simp at h1 ⊢; exact h1)]
      by_cases h2 : (c == Char.ofNat 0x2014) = true
      · rw [if_pos h2]; decide
      · rw [if_neg (by simp at h2 ⊢; exact h2)]
        simp only [Bool.not_eq_true] at h1 h2
        simp [h1, h2]

/-- On a dash-free list, dash rewriting is the identity. -/
theorem map_dashRepl_fix (l : List Char) (h : noDashB l = true) : l.map dashRepl = l := by
  induction l with
  | nil => rfl
  | cons c cs ih =>
    simp only [noDashB, List.all_cons, Bool.and_eq_true, Bool.not_eq_true'] at h
    simp only [List.map_cons]
    have hc : dashRepl c = c := by
      unfold dashRepl
      rw [if_neg (by simp [h.1.1]), if_neg (by simp [h.1.2])]
    rw [hc, ih (by simp only [noDashB, Bool.not_eq_true']; exact h.2)]

/-- Whitespace status of the head of a reversed list is that of the last
element. -/
theorem headIsWS_reverse (l : List Char) : headIsWS l.reverse = lastIsWS l := by
  have hgen : ∀ m : List Char,
      headIsWS m = (match m.head? with | none => false | some c => isPySpace c) := by
    intro m
    cases m with
    | nil => rfl
    | cons c cs => rfl
  rw [hgen l.reverse, List.head?_reverse]
  cases hl : l.getLast? with
  | none => simp [lastIsWS, hl]
  | some c => simp [lastIsWS, hl]

/-- Stripping is the identity when both ends are already non-whitespace. -/
theorem pyStrip_eq_self (l : List Char) (h1 : headIsWS l = false)
    (h2 : lastIsWS l = false) : pyStrip l = l := by
  unfold pyStrip
  rw [dropWhile_of_headF l h1]
  rw [dropWhile_of_headF l.reverse (by rw [headIsWS_reverse]; exact h2)]
  exact List.reverse_reverse l

/-- The stripped list starts with a non-whitespace character. -/
theorem headIsWS_pyStrip (l : List Char) : headIsWS (pyStrip l) = false := by
  unfold pyStrip
  by_cases hx : (l.dropWhile isPySpace).reverse.dropWhile isPySpace = []
  · rw [hx]; rfl
  · have h1 : headIsWS ((l.dropWhile isPySpace).reverse.dropWhile isPySpace).reverse =
        lastIsWS ((l.dropWhile isPySpace).reverse.dropWhile isPySpace) :=
      headIsWS_reverse _
    rw [h1, lastIsWS_dropWhile _ hx]
    have h2 : headIsWS (l.dropWhile isPySpace).reverse.reverse =
        lastIsWS (l.dropWhile isPySpace).reverse := headIsWS_reverse _
    rw [List.reverse_reverse] at h2
    rw [← h2]
    exact headIsWS_dropWhile l

/-- The stripped list ends with a non-whitespace character. -/
theorem lastIsWS_pyStrip (l : List Char) : lastIsWS (pyStrip l) = false := by
  unfold pyStrip
  have h2 : headIsWS ((l.dropWhile isPySpace).reverse.dropWhile isPySpace).reverse.reverse =
      lastIsWS ((l.dropWhile isPySpace).reverse.dropWhile isPySpace).reverse :=
    headIsWS_reverse _
  rw [List.reverse_reverse] at h2
  rw [← h2]
  exact headIsWS_dropWhile _

/-- Dash rewriting preserves the head whitespace status. -/
theorem headIsWS_map_dashRepl (l : List Char) :
    headIsWS (l.map dashRepl) = headIsWS l := by
  cases l with
  | nil => rfl
  | cons c cs => simp only [List.map_cons, headIsWS, isPySpace_dashRepl]

/-- Dash rewriting preserves the last-element whitespace status. -/
theorem lastIsWS_map_dashRepl (l : List Char) :
    lastIsWS (l.map dashRepl) = lastIsWS l := by
  induction l with
  | nil => rfl
  | cons c cs ih =>
    simp only [List.map_cons]
    rw [lastIsWS_cons, lastIsWS_cons]
    cases cs with
    | nil => simp [isPySpace_dashRepl]
    | cons d ds => simpa using ih

/-- Dash rewriting preserves separation of whitespace. -/
theorem noRunB_map_dashRepl (l : List Char) : noRunB (l.map dashRepl) = noRunB l := by
  induction l with
  | nil => rfl
  | cons c cs ih =>
    simp only [List.map_cons, noRunB, isPySpace_dashRepl]
    rw [headIsWS_map_dashRepl]
    rw [show noRunB (List.map dashRepl cs) = noRunB cs from by
      cases cs with
      | nil => rfl
      | cons d ds => simpa using ih]

/-- Dash rewriting keeps all whitespace as plain spaces. -/
theorem allWsSp_map_dashRepl (l : List Char) (h : allWsSp l = true) :
    allWsSp (l.map dashRepl) = true := by
  induction l with
  | nil => rfl
  | cons c cs ih =>
    simp only [allWsSp, List.all_cons, Bool.and_eq_true] at h
    simp only [List.map_cons, allWsSp, List.all_cons, Bool.and_eq_true]
    constructor
    · by_cases hc : isPySpace c = true
      · rw [dashRepl_ws c hc]
        exact h.1
      · have hf : isPySpace (dashRepl c) = false := by
          rw [isPySpace_dashRepl]; simpa using hc
        simp [hf]
    · have hr := ih (by simp only [allWsSp]; exact h.2)
      simpa [allWsSp] using hr

/-- C7: the key normalizer is idempotent. -/
theorem normalize_key_idempotent :
    ∀ s : String, normalize_key (normalize_key s) = normalize_key s := by
  intro s
  show normalize_key (String.mk ((subWsA false (pyStrip s.data)).map dashRepl)) = _
  set m := subWsA false (pyStrip s.data) with hm
  have hh : headIsWS m = false := headIsWS_subWsA_false _ (headIsWS_pyStrip s.data)
  have hl : lastIsWS m = false := lastIsWS_subWsA _ (lastIsWS_pyStrip s.data) false
  have hrun : noRunB m = true := noRunB_subWsA _ false
  have hsp : allWsSp m = true := allWsSp_subWsA _ false
  have hout_head : headIsWS (m.map dashRepl) = false := by
    rw [headIsWS_map_dashRepl]; exact hh
  have hout_last : lastIsWS (m.map dashRepl) = false := by
    rw [lastIsWS_map_dashRepl]; exact hl
  have hout_run : noRunB (m.map dashRepl) = true := by
    rw [noRunB_map_dashRepl]; exact hrun
  have hout_sp : allWsSp (m.map dashRepl) = true := allWsSp_map_dashRepl _ hsp
  have hout_dash : noDashB (m.map dashRepl) = true := noDashB_map_dashRepl _
  show String.mk ((subWsA false (pyStrip (String.mk (m.map dashRepl)).data)).map dashRepl) = _
  have hdata : (String.mk (m.map dashRepl)).data = m.map dashRepl := rfl
  rw [hdata, pyStrip_eq_self _ hout_head hout_last, subWsA_fix _ hout_run hout_sp,
    map_dashRepl_fix _ hout_dash]
  rw [hm]
  rfl

/-! ## C6: deterministic report ordering -/

theorem charListLeb_cons (x y : Char) (xs ys : List Char) :
    charListLeb (x :: xs) (y :: ys) = true ↔
      x < y ∨ (x = y ∧ charListLeb xs ys = true) := by
  simp [charListLeb, Bool.or_eq_true, Bool.and_eq_true, decide_eq_true_eq, beq_iff_eq]

/-- Code-point comparison is total. -/
theorem charListLeb_total : ∀ a b : List Char,
    charListLeb a b = true ∨ charListLeb b a = true := by
  intro a
  induction a with
  | nil => intro b; left; rfl
  | cons x xs ih =>
    intro b
    cases b with
    | nil => right; rfl
    | cons y ys =>
      rcases lt_trichotomy x y with h | h | h
      · left; rw [charListLeb_cons]; exact Or.inl h
      · subst h
        rcases ih ys with hh | hh
        · left; rw [charListLeb_cons]; exact Or.inr ⟨rfl, hh⟩
        · right; rw [charListLeb_cons]; exact Or.inr ⟨rfl, hh⟩
      · right; rw [charListLeb_cons]; exact Or.inl h

/-- Code-point comparison is transitive. -/
theorem charListLeb_trans : ∀ a b c : List Char,
    charListLeb a b = true → charListLeb b c = true → charListLeb a c = true := by
  intro a
  induction a with
  | nil => intro b c _ _; rfl
  | cons x xs ih =>
    intro b c h1 h2
    cases b with
    | nil => cases h1
    | cons y ys =>
      cases c with
      | nil => cases h2
      | cons z zs =>
        rw [charListLeb_cons] at h1 h2 ⊢
        rcases h1 with hxy | ⟨hxy, hr1⟩
        · rcases h2 with hyz | ⟨hyz, hr2⟩
          · exact Or.inl (lt_trans hxy hyz)
          · exact Or.inl (hyz ▸ hxy)
        · rcases h2 with hyz | ⟨hyz, hr2⟩
          · exact Or.inl (hxy ▸ hyz)
          · exact Or.inr ⟨hxy.trans hyz, ih ys zs hr1 hr2⟩

theorem rowLEb_iff (x y : String × Int) :
    rowLEb x y = true ↔
      category_rank x.1 < category_rank y.1 ∨
        (category_rank x.1 = category_rank y.1 ∧
          (size_rank x.1 < size_rank y.1 ∨
            (size_rank x.1 = size_rank y.1 ∧ charListLeb (lc x.1) (lc y.1) = true))) := by
  simp [rowLEb, sortKey, Bool.or_eq_true, Bool.and_eq_true, decide_eq_true_eq, beq_iff_eq]

/-- The row comparison of `to_dataframe` is total. -/
theorem rowLEb_total (x y : String × Int) : rowLEb x y = true ∨ rowLEb y x = true := by
  rw [rowLEb_iff, rowLEb_iff]
  rcases lt_trichotomy (category_rank x.1) (category_rank y.1) with h | h | h
  · exact Or.inl (Or.inl h)
  · rcases lt_trichotomy (size_rank x.1) (size_rank y.1) with h2 | h2 | h2
    · exact Or.inl (Or.inr ⟨h, Or.inl h2⟩)
    · rcases charListLeb_total (lc x.1) (lc y.1) with h3 | h3
      · exact Or.inl (Or.inr ⟨h, Or.inr ⟨h2, h3⟩⟩)
      · exact Or.inr (Or.inr ⟨h.symm, Or.inr ⟨h2.symm, h3⟩⟩)
    · exact Or.inr (Or.inr ⟨h.symm, Or.inl h2⟩)
  · exact Or.inr (Or.inl h)

/-- The row comparison of `to_dataframe` is transitive. -/
theorem rowLEb_trans (x y z : String × Int) (h1 : rowLEb x y = true)
    (h2 : rowLEb y z = true) : rowLEb x z = true := by
  rw [rowLEb_iff] at h1 h2 ⊢
  rcases h1 with hc1 | ⟨hc1, hs1⟩
  · rcases h2 with hc2 | ⟨hc2, hs2⟩
    · exact Or.inl (lt_trans hc1 hc2)
    · exact Or.inl (hc2 ▸ hc1)
  · rcases h2 with hc2 | ⟨hc2, hs2⟩
    · exact Or.inl (hc1 ▸ hc2)
    · refine Or.inr ⟨hc1.trans hc2, ?_⟩
      rcases hs1 with hr1 | ⟨hr1, hl1⟩
      · rcases hs2 with hr2 | ⟨hr2, hl2⟩
        · exact Or.inl (lt_trans hr1 hr2)
        · exact Or.inl (hr2 ▸ hr1)
      · rcases hs2 with hr2 | ⟨hr2, hl2⟩
        · exact Or.inl (hr1 ▸ hr2)
        · exact Or.inr ⟨hr1.trans hr2, charListLeb_trans _ _ _ hl1 hl2⟩

/-- Stable insertion produces a permutation. -/
theorem ordIns_perm (le : String × Int → String × Int → Bool) (a : String × Int) :
    ∀ l : List (String × Int), (ordIns le a l).Perm (a :: l) := by
  intro l
  induction l with
  | nil => exact List.Perm.refl _
  | cons b t ih =>
    unfold ordIns
    by_cases h : le a b = true
    · rw [if_pos h]
    · rw [if_neg h]
      exact (ih.cons b).trans (List.Perm.swap a b t)

/-- Stable insertion sort produces a permutation of its input. -/
theorem insSort_perm (le : String × Int → String × Int → Bool) :
    ∀ l : List (String × Int), (insSort le l).Perm l := by
  intro l
  induction l with
  | nil => exact List.Perm.refl _
  | cons a t ih =>
    unfold insSort
    exact (ordIns_perm le a (insSort le t)).trans (ih.cons a)

/-- Stable insertion preserves sortedness (given a total transitive
comparison). -/
theorem ordIns_pairwise (le : String × Int → String × Int → Bool)
    (htot : ∀ x y, le x y = true ∨ le y x = true)
    (htrans : ∀ x y z, le x y = true → le y z = true → le x z = true)
    (a : String × Int) :
    ∀ l : List (String × Int), List.Pairwise (fun x y => le x y = true) l →
      List.Pairwise (fun x y => le x y = true) (ordIns le a l) := by
  intro l
  induction l with
  | nil => intro _; simp [ordIns]
  | cons b t ih =>
    intro h
    rw [List.pairwise_cons] at h
    unfold ordIns
    by_cases hab : le a b = true
    · rw [if_pos hab]
      rw [List.pairwise_cons]
      refine ⟨?_, List.pairwise_cons.mpr h⟩
      intro x hx
      rcases List.mem_cons.mp hx with he | hm
      · exact he ▸ hab
      · exact htrans a b x hab (h.1 x hm)
    · rw [if_neg hab]
      rw [List.pairwise_cons]
      constructor
      · intro x hx
        have hx2 : x ∈ a :: t := (ordIns_perm le a t).mem_iff.mp hx
        rcases List.mem_cons.mp hx2 with he | hm
        · rw [he]
          rcases htot a b with hh | hh
          · exact absurd hh hab
          · exact hh
        · exact h.1 x hm
      · exact ih h.2

/-- Stable insertion sort sorts (given a total transitive comparison). -/
theorem insSort_pairwise (le : String × Int → String × Int → Bool)
    (htot : ∀ x y, le x y = true ∨ le y x = true)
    (htrans : ∀ x y z, le x y = true → le y z = true → le x z = true) :
    ∀ l : List (String × Int), List.Pairwise (fun x y => le x y = true) (insSort le l) := by
  intro l
  induction l with
  | nil => simp [insSort]
  | cons a t ih =>
    unfold insSort
    exact ordIns_pairwise le htot htrans a (insSort le t) ih

/-- The size rank is bounded by 10, sized keys getting a rank below 10. -/
theorem size_rank_le (k : String) : size_rank k ≤ 10 := by
  unfold size_rank
  have tok_le : ∀ (l : List Char) (r : Nat), sizeTokAt l = some r → r ≤ 9 := by
    intro l r h
    unfold sizeTokAt at h
    split_ifs at h with h0 h1 h2 h3 h4
    · simp only [Option.some.injEq] at h; omega
    · simp only [Option.some.injEq] at h; omega
    · simp only [Option.some.injEq] at h; omega
    · simp only [Option.some.injEq] at h; omega
    · simp only [Option.some.injEq] at h; omega
    · match l, h with
      | a :: b :: c :: rs, h =>
        simp only [] at h
        by_cases hcnd : (('2' ≤ a && a ≤ '6') && b == 'x' && c == 'l' && !(headWord rs)) = true
        · rw [if_pos hcnd] at h
          simp only [Option.some.injEq] at h
          simp only [Bool.and_eq_true, decide_eq_true_eq] at hcnd
          have hle : a.toNat ≤ 54 := Char.le_def.mp hcnd.1.1.1.2
          have h48 : ('0').toNat = 48 := rfl
          omega
        · rw [if_neg hcnd] at h
          cases h
  have main : ∀ (l : List Char) (b : Bool) (r : Nat),
      searchSizeIdx b l = some r → r ≤ 9 := by
    intro l
    induction l with
    | nil => intro b r h; cases h
    | cons c cs ih =>
      intro b r h
      unfold searchSizeIdx at h
      rcases ho : (if b = true then none else sizeTokAt (c :: cs)) with _ | v
      · rw [ho] at h
        exact ih (pyWordChar c) r h
      · rw [ho] at h
        simp only [Option.some.injEq] at h
        subst h
        by_cases hb : b = true
        · rw [if_pos hb] at ho; cases ho
        · rw [if_neg hb] at ho
          exact tok_le _ _ ho
  rcases hs : searchSizeIdx false (lc k) with _ | r
  · simp
  · simp only [Option.getD_some]
    exact Nat.le_trans (main (lc k) false r hs) (by omega)

/-- C6: the report rows of `to_dataframe` are exactly the aggregate rows
(a permutation), arranged in the total order (category rank ascending, size
rank ascending, lowercased key ascending); a key with no standalone size
token gets size rank 10, past every token rank; and the spec's three-key
example sorts as stated. -/
theorem to_dataframe_rows_sorted :
    (∀ agg, List.Pairwise (fun x y => rowLEb x y = true) (to_dataframe_rows agg)) ∧
    (∀ agg, (to_dataframe_rows agg).Perm agg) ∧
    (∀ k, size_rank k ≤ 10) ∧
    to_dataframe_rows
        [("Hooded Sweatshirt - XL", 1), ("Hooded Sweatshirt - S", 2), ("Sweatshirt - M", 1)] =
      [("Sweatshirt - M", 1), ("Hooded Sweatshirt - S", 2), ("Hooded Sweatshirt - XL", 1)] := by
  refine ⟨?_, ?_, size_rank_le, by decide⟩
  · intro agg
    exact insSort_pairwise rowLEb rowLEb_total rowLEb_trans agg
  · intro agg
    exact insSort_perm rowLEb agg

/-! ## C2: export filters versus categorizer ranks -/

/-- A literal match consumes exactly the pattern. -/
theorem dropLit_some_decomp (p : List Char) :
    ∀ s r, dropLit p s = some r → s = p ++ r := by
  induction p with
  | nil =>
    intro s r h
    simp only [dropLit, Option.some.injEq] at h
    rw [h]; rfl
  | cons x xs ih =>
    intro s r h
    cases s with
    | nil => cases h
    | cons c cs =>
      unfold dropLit at h
      by_cases hc : (c == x) = true
      · rw [if_pos hc] at h
        rw [List.cons_append, ← ih cs r h, eq_of_beq hc]
      · rw [if_neg hc] at h; cases h

/-- Matching a concatenated pattern factors through its halves. -/
theorem dropLit_append (p q : List Char) :
    ∀ s, dropLit (p ++ q) s = (dropLit p s).bind (dropLit q) := by
  induction p with
  | nil => intro s; rfl
  | cons x xs ih =>
    intro s
    cases s with
    | nil => rfl
    | cons c cs =>
      simp only [List.cons_append, List.append_eq, dropLit]
      by_cases hc : (c == x) = true
      · rw [if_pos hc, if_pos hc]
        exact ih cs
      · rw [if_neg hc, if_neg hc]; rfl

/-- Substring occurrence characterized by a drop offset. -/
theorem containsQ_iff (pat : List Char) :
    ∀ l, containsQ pat l = true ↔ ∃ i, (dropLit pat (l.drop i)).isSome = true := by
  intro l
  induction l with
  | nil =>
    simp only [containsQ]
    constructor
    · intro h; exact ⟨0, h⟩
    · rintro ⟨i, hi⟩
      rw [List.drop_nil] at hi
      exact hi
  | cons c cs ih =>
    simp only [containsQ, Bool.or_eq_true]
    constructor
    · rintro (h | h)
      · exact ⟨0, h⟩
      · rcases ih.mp h with ⟨i, hi⟩
        exact ⟨i + 1, by simpa using hi⟩
    · rintro ⟨i, hi⟩
      cases i with
      | zero => exact Or.inl (by simpa using hi)
      | succ j => exact Or.inr (ih.mpr ⟨j, by simpa using hi⟩)

/-- A leading fragment of an occurring pattern also occurs. -/
theorem containsQ_append_left (p q l : List Char)
    (h : containsQ (p ++ q) l = true) : containsQ p l = true := by
  rcases (containsQ_iff (p ++ q) l).mp h with ⟨i, hi⟩
  refine (containsQ_iff p l).mpr ⟨i, ?_⟩
  rw [dropLit_append] at hi
  rcases hp : dropLit p (l.drop i) with _ | m
  · rw [hp] at hi; cases hi
  · simp

/-- A trailing fragment of an occurring pattern also occurs. -/
theorem containsQ_append_right (p q l : List Char)
    (h : containsQ (p ++ q) l = true) : containsQ q l = true := by
  rcases (containsQ_iff (p ++ q) l).mp h with ⟨i, hi⟩
  rw [dropLit_append] at hi
  rcases hp : dropLit p (l.drop i) with _ | m
  · rw [hp] at hi; cases hi
  · rw [hp] at hi
    refine (containsQ_iff q l).mpr ⟨i + p.length, ?_⟩
    have hdec : l.drop i = p ++ m := dropLit_some_decomp p _ m hp
    have hm : l.drop (i + p.length) = m := by
      have h1 : List.drop p.length (List.drop i l) = m := by
        rw [hdec, List.drop_left]
      rw [List.drop_drop] at h1
      exact h1
    rw [hm]
    exact hi

/-- The hoodie markers contain the bare category keywords. -/
theorem hooded_of_hs (l : List Char) (h : containsQ ("hooded sweatshirt".data) l = true) :
    containsQ ("hooded".data) l = true := by
  have he : ("hooded sweatshirt".data) = ("hooded".data) ++ (" sweatshirt".data) := rfl
  exact containsQ_append_left _ _ l (he ▸ h)

theorem hoodie_of_uh (l : List Char) (h : containsQ ("unisex hoodie".data) l = true) :
    containsQ ("hoodie".data) l = true := by
  have he : ("unisex hoodie".data) = ("unisex ".data) ++ ("hoodie".data) := rfl
  exact containsQ_append_right _ _ l (he ▸ h)

/-- Counterexample to C2 as stated: the key "Hoodie" has category rank 2 but
fails the export hoodie filter, and the key "Hoodie Sweatshirt" passes the
export sweatshirt filter but has category rank 2, not 0.  So neither
biconditional of the claim holds. -/
theorem filters_vs_ranks_counterexample :
    category_rank "Hoodie" = 2 ∧ hoodFilterB "Hoodie" = false ∧
    sweatFilterB "Hoodie Sweatshirt" = true ∧ category_rank "Hoodie Sweatshirt" = 2 := by
  refine ⟨by decide, by decide, by decide, by decide⟩

/-- C2 (amended): the true relationship between the `save_outputs` filters
and the categorizer: a rank-0 key always passes the sweatshirt filter, and a
key passing the hoodie filter always has rank 1 or rank 2 (rank 2 when no
long-sleeve spelling occurs); the claimed biconditionals fail (see the
counterexample). -/
theorem filters_vs_ranks :
    ∀ k : String,
      (category_rank k = 0 → sweatFilterB k = true) ∧
      (hoodFilterB k = true → category_rank k = 1 ∨ category_rank k = 2) := by
  intro k
  constructor
  · intro h
    have hr0 : rule0 k = true := by
      by_cases hr : rule0 k = true
      · exact hr
      · exfalso
        unfold category_rank at h
        rw [if_neg hr] at h
        repeat' split at h
        all_goals omega
    unfold rule0 at hr0
    simp only [Bool.and_eq_true, Bool.not_eq_true'] at hr0
    unfold sweatFilterB hoodFilterB
    simp only [Bool.and_eq_true, Bool.not_eq_true', Bool.or_eq_false_iff]
    refine ⟨hr0.1.1, ?_, ?_⟩
    · rcases hh : containsQ ("hooded sweatshirt".data) (lc k) with _ | _
      · rfl
      · rw [hooded_of_hs _ hh] at hr0
        exact absurd hr0.1.2 (by simp)
    · rcases hh : containsQ ("unisex hoodie".data) (lc k) with _ | _
      · rfl
      · rw [hoodie_of_uh _ hh] at hr0
        exact absurd hr0.2 (by simp)
  · intro h
    unfold hoodFilterB at h
    have hr0 : rule0 k = false := by
      unfold rule0
      dsimp only
      rcases Bool.or_eq_true_iff.mp h with hh | hh
      · rw [hooded_of_hs _ hh]
        simp
      · rw [hoodie_of_uh _ hh]
        simp
    have hr2 : rule2 k = true := by
      unfold rule2
      dsimp only
      rcases Bool.or_eq_true_iff.mp h with hh | hh
      · rw [hh]; simp
      · rw [hh]; simp
    unfold category_rank
    rw [if_neg (by simp [hr0])]
    by_cases hr1 : rule1 k = true
    · rw [if_pos hr1]
      exact Or.inl rfl
    · rw [if_neg hr1, if_pos hr2]
      exact Or.inr rfl

/-- Witness for the amended C2 at concrete keys. -/
theorem filters_vs_ranks_witness :
    sweatFilterB "Sweatshirt - L" = true ∧
      (category_rank "Unisex Hoodie" = 1 ∨ category_rank "Unisex Hoodie" = 2) :=
  ⟨(filters_vs_ranks "Sweatshirt - L").1 (by decide),
   (filters_vs_ranks "Unisex Hoodie").2 (by decide)⟩

/-! ## C10: the quantity pattern is unanchored -/

/-- Head character of a string is a decimal digit. -/
def headIsDigit (s : String) : Bool :=
  match s.data with
  | [] => false
  | c :: _ => isPyDigit c

/-- The unanchored search steps over a position where the pattern fails. -/
theorem searchQ_cons_none (c : Char) (cs : List Char) (h : matchAtQ (c :: cs) = none) :
    searchQ (c :: cs) = searchQ cs := by
  have hstep : searchQ (c :: cs) =
      (match matchAtQ (c :: cs) with
       | some q => some q
       | none => searchQ cs) := rfl
  rw [hstep, h]

/-- C10: quantity recognition is unanchored: inside `_parse_quantity_from_line`
the qty marker may sit anywhere in the line, with arbitrary text before it and
(non-digit-leading) text after the number, as in "Ship qty: 3 units total";
the anchored whole-line pattern `QTY_RE` rejects that same line, and the
resolver (`find_quantity_near`), which consults only the unanchored pattern,
still resolves quantity 3 from it. -/
theorem qty_pattern_unanchored :
    parse_quantity_from_line "Ship qty: 3 units total" = some 3 ∧
    qtyReMatch "Ship qty: 3 units total" = none ∧
    find_quantity_near ["Ship qty: 3 units total", "Style: M"] 1 5 = 3 ∧
    (∀ post : String, headIsDigit post = false →
      parse_quantity_from_line (String.mk (("Ship qty: 3".data) ++ post.data)) = some 3) := by
  refine ⟨by decide, by decide, by decide, ?_⟩
  intro post h
  have htw : post.data.takeWhile isPyDigit = [] := by
    cases hp : post.data with
    | nil => rfl
    | cons c cs =>
      unfold headIsDigit at h
      rw [hp] at h
      have hc : isPyDigit c = false := h
      rw [List.takeWhile_cons, if_neg (by simp [hc])]
  show searchQ (("Ship qty: 3".data) ++ post.data) = some 3
  have hdata : ("Ship qty: 3".data) ++ post.data =
      'S' :: 'h' :: 'i' :: 'p' :: ' ' :: 'q' :: 't' :: 'y' :: ':' :: ' ' :: '3' :: post.data :=
    rfl
  rw [hdata]
  have hcS : ∀ rest : List Char, matchAtQ ('S' :: rest) = none := fun _ => rfl
  have hch : ∀ rest : List Char, matchAtQ ('h' :: rest) = none := fun _ => rfl
  have hci : ∀ rest : List Char, matchAtQ ('i' :: rest) = none := fun _ => rfl
  have hcp : ∀ rest : List Char, matchAtQ ('p' :: rest) = none := fun _ => rfl
  have hcsp : ∀ rest : List Char, matchAtQ (' ' :: rest) = none := fun _ => rfl
  rw [searchQ_cons_none _ _ (hcS _), searchQ_cons_none _ _ (hch _),
    searchQ_cons_none _ _ (hci _), searchQ_cons_none _ _ (hcp _),
    searchQ_cons_none _ _ (hcsp _)]
  have hm : matchAtQ ('q' :: 't' :: 'y' :: ':' :: ' ' :: '3' :: post.data) = some 3 := by
    have hred : matchAtQ ('q' :: 't' :: 'y' :: ':' :: ' ' :: '3' :: post.data) =
        (if ('3' :: post.data.takeWhile isPyDigit).isEmpty then none
         else some (digitsToNat ('3' :: post.data.takeWhile isPyDigit))) := rfl
    rw [hred, htw]
    decide
  unfold searchQ
  rw [hm]

/-- Witness for C10 at the concrete trailing text of the example line. -/
theorem qty_pattern_unanchored_witness :
    parse_quantity_from_line (String.mk (("Ship qty: 3".data) ++ (" units total".data))) =
      some 3 :=
  qty_pattern_unanchored.2.2.2 " units total" (by decide)

/-! ## C3: the label detector -/

/-- A colon begins the input after optional whitespace. -/
def colonAfterWs (r : List Char) : Bool :=
  match r.dropWhile isPySpace with
  | c :: _ => c == ':'
  | [] => false

/-- Spec-side test: the input begins (case-insensitively) with the given
prefix text, then optional whitespace, then the colon. -/
def prefColon (pat : String) (s : List Char) : Bool :=
  match lcLit pat.data s with
  | some r => colonAfterWs r
  | none => false

/-- Spec-side test for `Product Size - Style:` with the hyphen optionally
surrounded by whitespace and optional whitespace before the colon. -/
def prefProdColon (s : List Char) : Bool :=
  match lcLit ("product size".data) s with
  | some r =>
    match r.dropWhile isPySpace with
    | c :: r2 =>
      c == '-' &&
        (match lcLit ("style".data) (r2.dropWhile isPySpace) with
         | some r3 => colonAfterWs r3
         | none => false)
    | [] => false
  | none => false

/-- Spec-side label predicate of the amended C3: after leading whitespace
and ignoring case, the line begins with one of the seven label prefixes, the
colon optionally separated from the prefix text by whitespace. -/
def beginsB (line : String) : Bool :=
  let s := line.data.dropWhile isPySpace
  prefColon "size/style" s || prefColon "shirt size/style" s || prefColon "shirt size" s ||
    prefProdColon s || prefColon "product size" s || prefColon "style" s || prefColon "size" s

/-- Claim-side test of the unamended C3: the prefix including its colon,
with no whitespace allowed before the colon. -/
def claimPref (pat : String) (s : List Char) : Bool := (lcLit pat.data s).isSome

/-- Claim-side test for `Product Size - Style:` of the unamended C3: only
the hyphen may be surrounded by whitespace. -/
def claimProd (s : List Char) : Bool :=
  match lcLit ("product size".data) s with
  | some r =>
    match r.dropWhile isPySpace with
    | c :: r2 => c == '-' && (lcLit ("style:".data) (r2.dropWhile isPySpace)).isSome
    | [] => false
  | none => false

/-- The label predicate exactly as C3 states it: after leading whitespace
and ignoring case, the line begins with one of the seven prefixes, colon
included. -/
def beginsClaimB (line : String) : Bool :=
  let s := line.data.dropWhile isPySpace
  claimPref "size/style:" s || claimPref "shirt size/style:" s || claimPref "shirt size:" s ||
    claimProd s || claimPref "product size:" s || claimPref "style:" s || claimPref "size:" s

/-- Everything after the first colon of the line (empty when there is no
colon). -/
def afterColonChars (line : String) : List Char :=
  (line.data.dropWhile (fun c => c != ':')).tail

/-- Counterexample to C3 as stated: the line "Size : M" produces a label
match with captured value "M", although it does not begin with any of the
seven prefixes of the claim (the source regex allows whitespace between the
prefix text and the colon, which the claim's prefix list does not). -/
theorem label_colon_gap_counterexample :
    LABEL_RE_match "Size : M" = some "M" ∧ beginsClaimB "Size : M" = false ∧
      parse_lines ["Size : M"] = [("M", 1)] := by
  refine ⟨by decide, by decide, by decide⟩

theorem isSome_orElse (a : Option (List Char)) (f : Unit → Option (List Char)) :
    (a.orElse f).isSome = (a.isSome || (f ()).isSome) := by
  cases a <;> rfl

/-- Per-alternative agreement of the matcher with the spec-side test. -/
theorem altLit_isSome (pat : String) (s : List Char) :
    (altLit pat s).isSome = prefColon pat s := by
  unfold altLit prefColon contColon colonAfterWs
  rcases hl : lcLit pat.data s with _ | r <;> simp only [hl]
  · rfl
  · rcases hr : r.dropWhile isPySpace with _ | ⟨c, v⟩ <;> simp only [hr]
    · rfl
    · by_cases hc : (c == ':') = true <;> simp [hc]

theorem altProd_isSome (s : List Char) : (altProd s).isSome = prefProdColon s := by
  unfold altProd prefProdColon contColon colonAfterWs
  rcases hl : lcLit ("product size".data) s with _ | r <;> simp only [hl]
  · rfl
  · rcases hr : r.dropWhile isPySpace with _ | ⟨c, r2⟩ <;> simp only [hr]
    · rfl
    · by_cases hc : (c == '-') = true
      · simp only [hc, if_true, Bool.true_and]
        rcases hl2 : lcLit ("style".data) (r2.dropWhile isPySpace) with _ | r3 <;>
          simp only [hl2]
        · rfl
        · rcases hr3 : r3.dropWhile isPySpace with _ | ⟨d, v⟩ <;> simp only [hr3]
          · rfl
          · by_cases hd : (d == ':') = true <;> simp [hd]
      · have hc2 : (c == '-') = false := by
          rcases hcc : (c == '-') with _ | _
          · rfl
          · exact absurd hcc hc
        simp only [hc2, if_false, Bool.false_and]
        rfl

/-- The matcher succeeds exactly on the lines of the amended label
predicate. -/
theorem LABEL_RE_match_isSome (line : String) :
    (LABEL_RE_match line).isSome = beginsB line := by
  have hmap : ∀ a : Option (List Char), (a.map String.mk).isSome = a.isSome := by
    intro a; cases a <;> rfl
  have hb : beginsB line =
      (prefColon "size/style" (line.data.dropWhile isPySpace) ||
        prefColon "shirt size/style" (line.data.dropWhile isPySpace) ||
        prefColon "shirt size" (line.data.dropWhile isPySpace) ||
        prefProdColon (line.data.dropWhile isPySpace) ||
        prefColon "product size" (line.data.dropWhile isPySpace) ||
        prefColon "style" (line.data.dropWhile isPySpace) ||
        prefColon "size" (line.data.dropWhile isPySpace)) := rfl
  rw [hb]
  unfold LABEL_RE_match labelValue
  rw [hmap]
  rw [isSome_orElse, isSome_orElse, isSome_orElse, isSome_orElse, isSome_orElse, isSome_orElse]
  rw [altLit_isSome, altLit_isSome, altLit_isSome, altProd_isSome, altLit_isSome,
    altLit_isSome, altLit_isSome]
  simp only [Bool.or_assoc]

theorem some_orElse_eq (x : List Char) (f : Unit → Option (List Char)) :
    (Option.some x).orElse f = some x := rfl

theorem none_orElse_eq (f : Unit → Option (List Char)) :
    (Option.none : Option (List Char)).orElse f = f () := rfl

/-- A case-insensitive literal match consumes characters whose lowercase
forms are letters of the pattern. -/
theorem lcLit_decomp (p : List Char) :
    ∀ s r, lcLit p s = some r → ∃ a, s = a ++ r ∧ ∀ c ∈ a, c.toLower ∈ p := by
  induction p with
  | nil =>
    intro s r h
    simp only [lcLit, Option.some.injEq] at h
    exact ⟨[], by simp [h]⟩
  | cons x xs ih =>
    intro s r h
    cases s with
    | nil => cases h
    | cons c cs =>
      unfold lcLit at h
      by_cases hc : (c.toLower == x) = true
      · rw [if_pos hc] at h
        rcases ih cs r h with ⟨a, ha, hmem⟩
        refine ⟨c :: a, by simp [ha], ?_⟩
        intro d hd
        rcases List.mem_cons.mp hd with he | hm
        · rw [he, eq_of_beq hc]
          exact List.mem_cons_self x xs
        · exact List.mem_cons_of_mem x (hmem d hm)
      · rw [if_neg hc] at h; cases h

/-- The colon continuation consumes whitespace, the colon, and the
post-colon whitespace. -/
theorem contColon_decomp (r v : List Char) (h : contColon r = some v) :
    ∃ w u, r = w ++ ':' :: u ∧ (∀ c ∈ w, isPySpace c = true) ∧ v = u.dropWhile isPySpace := by
  unfold contColon at h
  rcases hr : r.dropWhile isPySpace with _ | ⟨c, u⟩
  · simp only [hr] at h; cases h
  · simp only [hr] at h
    by_cases hc : (c == ':') = true
    · rw [if_pos hc] at h
      refine ⟨r.takeWhile isPySpace, u, ?_, ?_, ?_⟩
      · rw [eq_of_beq hc] at hr
        rw [← hr]
        exact (List.takeWhile_append_dropWhile isPySpace r).symm
      · intro d hd
        exact List.mem_takeWhile_imp hd
      · simp only [Option.some.injEq] at h
        exact h.symm
    · rw [if_neg hc] at h; cases h

/-- Dropping over a satisfying block. -/
theorem dropWhile_append_all (p : Char → Bool) (a : List Char) :
    ∀ b, (∀ c ∈ a, p c = true) → List.dropWhile p (a ++ b) = List.dropWhile p b := by
  induction a with
  | nil => intro b _; rfl
  | cons x xs ih =>
    intro b h
    rw [List.cons_append, List.dropWhile_cons, if_pos (h x (List.mem_cons_self x xs))]
    exact ih b (fun c hc => h c (List.mem_cons_of_mem x hc))

/-- Plain-literal alternative: everything consumed before the colon is
colon-free, and the captured value is the post-colon rest without its
leading whitespace. -/
theorem altLit_decomp (pat : String) (s v : List Char)
    (hpat : ∀ c ∈ pat.data, c ≠ ':') (h : altLit pat s = some v) :
    ∃ a u, s = a ++ ':' :: u ∧ (∀ c ∈ a, c ≠ ':') ∧ v = u.dropWhile isPySpace := by
  unfold altLit at h
  rcases hl : lcLit pat.data s with _ | r
  · simp only [hl] at h; cases h
  · simp only [hl] at h
    rcases lcLit_decomp pat.data s r hl with ⟨a1, ha1, hm1⟩
    rcases contColon_decomp r v h with ⟨w, u, hw, hwm, hv⟩
    refine ⟨a1 ++ w, u, ?_, ?_, hv⟩
    · rw [ha1, hw, List.append_assoc]
    · intro c hc
      rcases List.mem_append.mp hc with hm | hm
      · intro he
        have := hm1 c hm
        rw [he] at this
        exact hpat ':' (by simpa using this) rfl
      · intro he
        have := hwm c hm
        rw [he] at this
        cases this
/-- The hyphen alternative: same shape. -/
theorem altProd_decomp (s v : List Char) (h : altProd s = some v) :
    ∃ a u, s = a ++ ':' :: u ∧ (∀ c ∈ a, c ≠ ':') ∧ v = u.dropWhile isPySpace := by
  unfold altProd at h
  rcases hl : lcLit ("product size".data) s with _ | r
  · simp only [hl] at h; cases h
  · simp only [hl] at h
    rcases hr : r.dropWhile isPySpace with _ | ⟨c, r2⟩
    · simp only [hr] at h; cases h
    · simp only [hr] at h
      by_cases hc : (c == '-') = true
      · rw [if_pos hc] at h
        rcases hl2 : lcLit ("style".data) (r2.dropWhile isPySpace) with _ | r3
        · simp only [hl2] at h; cases h
        · simp only [hl2] at h
          rcases lcLit_decomp _ s r hl with ⟨a1, ha1, hm1⟩
          rcases lcLit_decomp _ (r2.dropWhile isPySpace) r3 hl2 with ⟨a2, ha2, hm2⟩
          rcases contColon_decomp r3 v h with ⟨w3, u, hw3, hwm3, hv⟩
          refine ⟨a1 ++ (r.takeWhile isPySpace ++ ('-' :: (r2.takeWhile isPySpace ++ (a2 ++ w3)))),
            u, ?_, ?_, hv⟩
          · rw [ha1]
            have key2 : r2 = (r2.takeWhile isPySpace) ++ (a2 ++ (w3 ++ ':' :: u)) := by
              conv_lhs => rw [← List.takeWhile_append_dropWhile isPySpace r2]
              rw [ha2, hw3]
            have key : r = (r.takeWhile isPySpace) ++
                ('-' :: ((r2.takeWhile isPySpace) ++ (a2 ++ (w3 ++ ':' :: u)))) := by
              conv_lhs => rw [← List.takeWhile_append_dropWhile isPySpace r]
              rw [hr, eq_of_beq hc]
              conv_lhs => rw [key2]
            conv_lhs => rw [key]
            simp [List.append_assoc]
          · intro d hd
            simp only [List.mem_append, List.mem_cons] at hd
            rcases hd with h1 | h2 | h3 | h4 | h5 | h6
            · intro he
              have := hm1 d h1
              rw [he] at this
              have hmm : ':' ∈ ("product size".data) := by simpa using this
              revert hmm
              decide
            · intro he
              have := List.mem_takeWhile_imp h2
              rw [he] at this
              cases this
            · intro he
              rw [h3] at he
              cases he
            · intro he
              have := List.mem_takeWhile_imp h4
              rw [he] at this
              cases this
            · intro he
              have := hm2 d h5
              rw [he] at this
              have hmm : ':' ∈ ("style".data) := by simpa using this
              revert hmm
              decide
            · intro he
              have := hwm3 d h6
              rw [he] at this
              cases this
      · rw [if_neg hc] at h; cases h

/-- Any successful label match decomposes the input at the first colon:
a colon-free consumed part, the colon, and the captured rest. -/
theorem labelValue_decomp (s v : List Char) (h : labelValue s = some v) :
    ∃ a u, s = a ++ ':' :: u ∧ (∀ c ∈ a, c ≠ ':') ∧ v = u.dropWhile isPySpace := by
  unfold labelValue at h
  rcases h1 : altLit "size/style" s with _ | v1
  · simp only [h1, none_orElse_eq] at h
    rcases h2 : altLit "shirt size/style" s with _ | v2
    · simp only [h2, none_orElse_eq] at h
      rcases h3 : altLit "shirt size" s with _ | v3
      · simp only [h3, none_orElse_eq] at h
        rcases h4 : altProd s with _ | v4
        · simp only [h4, none_orElse_eq] at h
          rcases h5 : altLit "product size" s with _ | v5
          · simp only [h5, none_orElse_eq] at h
            rcases h6 : altLit "style" s with _ | v6
            · simp only [h6, none_orElse_eq] at h
              rcases h7 : altLit "size" s with _ | v7
              · rw [h7] at h; cases h
              · rw [h7] at h
                simp only [Option.some.injEq] at h
                subst h
                exact altLit_decomp _ s _ (by decide) h7
            · simp only [h6, some_orElse_eq, Option.some.injEq] at h
              subst h
              exact altLit_decomp _ s _ (by decide) h6
          · simp only [h5, some_orElse_eq, Option.some.injEq] at h
            subst h
            exact altLit_decomp _ s _ (by decide) h5
        · simp only [h4, some_orElse_eq, Option.some.injEq] at h
          subst h
          exact altProd_decomp s _ h4
      · simp only [h3, some_orElse_eq, Option.some.injEq] at h
        subst h
        exact altLit_decomp _ s _ (by decide) h3
    · simp only [h2, some_orElse_eq, Option.some.injEq] at h
      subst h
      exact altLit_decomp _ s _ (by decide) h2
  · simp only [h1, some_orElse_eq, Option.some.injEq] at h
    subst h
    exact altLit_decomp _ s _ (by decide) h1

/-- Stripping absorbs a leading whitespace drop. -/
theorem pyStrip_dropWhile_eq (u : List Char) :
    pyStrip (u.dropWhile isPySpace) = pyStrip u := by
  unfold pyStrip
  rw [dropWhile_of_headF _ (headIsWS_dropWhile u)]

/-- The captured value of a label match is, after stripping, everything
after the first colon of the line, trimmed. -/
theorem LABEL_RE_capture (line v : String) (h : LABEL_RE_match line = some v) :
    pyStrip v.data = pyStrip (afterColonChars line) := by
  unfold LABEL_RE_match at h
  rcases hlv : labelValue (line.data.dropWhile isPySpace) with _ | vc
  · rw [hlv] at h; cases h
  · rw [hlv] at h
    simp only [Option.map_some', Option.some.injEq] at h
    rcases labelValue_decomp _ vc hlv with ⟨a, u, hs, ha, hvc⟩
    have hline : line.data = (line.data.takeWhile isPySpace ++ a) ++ ':' :: u := by
      conv_lhs => rw [← List.takeWhile_append_dropWhile isPySpace line.data]
      conv_lhs => rw [hs]
      rw [List.append_assoc]
    have hafter : afterColonChars line = u := by
      unfold afterColonChars
      conv_lhs => rw [hline]
      rw [dropWhile_append_all _ _ _ ?side]
      case side =>
        intro c hc
        rcases List.mem_append.mp hc with hm | hm
        · have hws := List.mem_takeWhile_imp hm
          have : c ≠ ':' := by
            intro he
            rw [he] at hws
            cases hws
          simpa using this
        · simpa using ha c hm
      rw [List.dropWhile_cons, if_neg (by simp)]
      rfl
    rw [hafter, ← h, hvc]
    exact pyStrip_dropWhile_eq u

/-- C3 (amended): the label detector produces a match exactly when, after
leading whitespace and ignoring case, the line begins with one of the seven
prefixes `Size/Style`, `Shirt Size/Style`, `Shirt Size`,
`Product Size - Style` (hyphen optionally surrounded by whitespace),
`Product Size`, `Style`, `Size`, followed by an optional run of whitespace
and the colon (the whitespace before the colon is what the original claim
omits); the captured value is everything after the (first) colon trimmed of
surrounding whitespace, so "Shirt Size/Style: M" captures "M" and a
non-matching line produces nothing. -/
theorem label_detector_spec :
    (∀ line : String, (LABEL_RE_match line).isSome = beginsB line) ∧
    (∀ line v : String, LABEL_RE_match line = some v →
      pyStrip v.data = pyStrip (afterColonChars line)) ∧
    parse_lines ["Shirt Size/Style: M"] = [("M", 1)] ∧
    parse_lines ["Random line"] = [] := by
  refine ⟨LABEL_RE_match_isSome, LABEL_RE_capture, by decide, by decide⟩

/-- Witness for the amended C3 at the claim's own example line. -/
theorem label_detector_spec_witness :
    pyStrip ("M".data) = pyStrip (afterColonChars "Shirt Size/Style: M") :=
  label_detector_spec.2.1 "Shirt Size/Style: M" "M" (by decide)
